import Mathlib

/-!
Shallow embedding of the `etools` header-only library (hashing MPH engine,
static storage cell, static dispatch factory) and verification of its
specification claims.

Modelling conventions:
* The target platform is 64-bit: `std::size_t` has 64 value bits, so native
  `size_t` arithmetic is `Nat` arithmetic reduced `% 2^64` where the C++
  computation can wrap.
* C++ arrays filled by loops are modelled as functions `Nat → Nat` built by
  folding pointwise updates, mirroring the write order of the source loops.
* Key packs `(KeyType, Keys...)` are modelled as `List Nat` in pack order,
  with the hypotheses (pairwise distinct, each below `2 ^ 64`) that the key
  type system enforces at compile time in the source.
-/

/-- Number of value bits of `std::size_t` on the modelled 64-bit target. -/
def word_bits : Nat := 64

/-- Modulus of `std::size_t` arithmetic, `2 ^ 64`. -/
def word_mod : Nat := 2 ^ word_bits

/-- Pointwise update of a function modelling a C++ array write `f[i] = v`. -/
def upd (f : Nat → Nat) (i v : Nat) : Nat → Nat :=
  fun j => if j = i then v else f j

/-- Embedding of `etools::hashing::mix_u64` (SplitMix64 finalizer) from
`src/unnamed/part_000` (utils.tpp): xor-shifts and odd-constant
multiplications on `std::uint64_t`, i.e. modulo `2 ^ 64`. -/
def mix_u64 (x : Nat) : Nat :=
  let x1 := x ^^^ (x >>> 30)
  let x2 := (x1 * 0xBF58476D1CE4E5B9) % word_mod
  let x3 := x2 ^^^ (x2 >>> 27)
  let x4 := (x3 * 0x94D049BB133111EB) % word_mod
  x4 ^^^ (x4 >>> 31)

/-- Embedding of `etools::hashing::mix_native` for the 64-bit target:
`mix_width<std::size_t, Key>` dispatches on `sizeof(std::size_t) == 8` to
`mix_u64(static_cast<std::uint64_t>(key))`.  The cast is `% 2 ^ 64`. -/
def mix_native (key : Nat) : Nat :=
  mix_u64 (key % word_mod)

/-- Embedding of `etools::hashing::ceil_pow2<std::size_t>` (utils.tpp):
bit-smearing next-power-of-two; the final `+ 1` wraps modulo `2 ^ 64`. -/
def ceil_pow2 (x : Nat) : Nat :=
  if x ≤ 1 then 1
  else
    let y0 := x - 1
    let y1 := y0 ||| (y0 >>> 1)
    let y2 := y1 ||| (y1 >>> 2)
    let y3 := y2 ||| (y2 >>> 4)
    let y4 := y3 ||| (y3 >>> 8)
    let y5 := y4 ||| (y4 >>> 16)
    let y6 := y5 ||| (y5 >>> 32)
    (y6 + 1) % word_mod

/-- Embedding of `etools::hashing::bit_width<std::size_t, std::size_t>`
(utils.tpp): branchy binary-chunk computation of `floor(log2 x) + 1`, with
`bit_width 0 = 0`.  `U` is `std::uint64_t` on the modelled target. -/
def bit_width (x : Nat) : Nat :=
  if x = 0 then 0
  else
    let s1 := if (x >>> 32) ≠ 0 then (x >>> 32, 32) else (x, 0)
    let s2 := if (s1.1 >>> 16) ≠ 0 then (s1.1 >>> 16, s1.2 + 16) else s1
    let s3 := if (s2.1 >>> 8) ≠ 0 then (s2.1 >>> 8, s2.2 + 8) else s2
    let s4 := if (s3.1 >>> 4) ≠ 0 then (s3.1 >>> 4, s3.2 + 4) else s3
    let s5 := if (s4.1 >>> 2) ≠ 0 then (s4.1 >>> 2, s4.2 + 2) else s4
    let r := if (s5.1 >>> 1) ≠ 0 then s5.2 + 1 else s5.2
    r + 1

/-- One chunk step of the `bit_width` cascade (shift when the upper chunk
is non-zero), used to reason about `bit_width` stage by stage. -/
def bw_step (w : Nat) (p : Nat × Nat) : Nat × Nat :=
  if p.1 >>> w ≠ 0 then (p.1 >>> w, p.2 + w) else p

/-- Embedding of `etools::hashing::ceil_log2<std::size_t>` (utils.tpp):
`0` for `x ≤ 1`, otherwise `bit_width (x - 1)`. -/
def ceil_log2 (x : Nat) : Nat :=
  if x ≤ 1 then 0 else bit_width (x - 1)

/-- Embedding of `etools::hashing::bucket_of` (utils.tpp): mask the mixed
key with `bucket_count - 1`. -/
def bucket_of (k bucket_count : Nat) : Nat :=
  mix_native k &&& (bucket_count - 1)

/-- Embedding of `etools::hashing::top_bits<std::size_t>` (utils.tpp): the
`r` most significant bits of the 64-bit value `x`, right-aligned; `0` when
`r = 0`.  Callers pass `x` already reduced `% 2 ^ 64`. -/
def top_bits (x r : Nat) : Nat :=
  if r = 0 then 0 else x >>> (word_bits - r)

/-- Embedding of `etools::meta::tpack_max` (utility.tpp): maximum of a
non-empty pack, folding `m = (m < k ? k : m)` from the first element. -/
def tpack_max : List Nat → Nat
  | [] => 0
  | k :: ks => ks.foldl (fun m x => if m < x then x else m) k

/-- Byte width of `etools::meta::smallest_uint_t<V>` (traits header):
smallest of `uint8_t/uint16_t/uint32_t/uint64_t` able to hold `V`. -/
def smallest_uint_bytes (v : Nat) : Nat :=
  if v ≤ 0xFF then 1
  else if v ≤ 0xFFFF then 2
  else if v ≤ 0xFFFFFFFF then 4
  else 8

/-- Embedding of `llut_impl::keys()` (llut.tpp): the pack size `N`. -/
def llut_keys_count (keys : List Nat) : Nat := keys.length

/-- Embedding of `llut_impl::not_found()` (llut.tpp): equals `keys()`. -/
def llut_not_found (keys : List Nat) : Nat := llut_keys_count keys

/-- Embedding of `llut_impl::size()` (llut.tpp): the backing array length
`tpack_max(Keys...) + 1`. -/
def llut_size (keys : List Nat) : Nat := tpack_max keys + 1

/-- The write loop of `llut_impl::make_table` (llut.tpp): left-to-right
`table[Keys_i] = idx++` over the pack, starting from index `idx`. -/
def llut_write_keys (t : Nat → Nat) (idx : Nat) : List Nat → (Nat → Nat)
  | [] => t
  | k :: ks => llut_write_keys (upd t k idx) (idx + 1) ks

/-- Embedding of `llut_impl::make_table` (llut.tpp): fill the table with
`not_found()`, then write the dense index of each key in pack order. -/
def llut_make_table (keys : List Nat) : Nat → Nat :=
  llut_write_keys (fun _ => llut_not_found keys) 0 keys

/-- Embedding of `llut_impl::operator()` (llut.tpp): out-of-range keys map
to the sentinel, otherwise the table cell is read and compared with the
sentinel. -/
def llut_lookup (keys : List Nat) (key : Nat) : Nat :=
  if llut_size keys ≤ key then llut_not_found keys
  else
    let v := llut_make_table keys key
    if v = llut_keys_count keys then llut_not_found keys else v

/-- Embedding of the selector arithmetic in `optimal_mph::instance`
(src/unnamed/part_006, optimal_mph.tpp): all quantities are `std::size_t`,
so `K = tpack_max + 1` and both sides of the comparison wrap `% 2 ^ 64`
(the inner sum `AlphaScaled * s_index + 2 * 8 + 1 + s_key` stays far below
`2 ^ 64` for every instantiable `sizeof`).  `s_key` is `sizeof(KeyType)`,
`alpha_scaled` the `AlphaScaled` template parameter,
`sizeof(std::size_t) = 8` on the modelled target, and
`index_t = smallest_uint_t<N>`. -/
def use_fks (s_key alpha_scaled : Nat) (keys : List Nat) : Bool :=
  let n := keys.length
  let k := (tpack_max keys + 1) % word_mod
  let s_index := smallest_uint_bytes n
  decide ((k * s_index) % word_mod >
    (n * (alpha_scaled * s_index + 2 * 8 + 1 + s_key)) % word_mod)

/-- Spec-side memory model of the LLUT backend, from the spec words
"memLLUT ≈ span * indexWidth" (for the refinement claim on the selector). -/
def spec_memLLUT (keys : List Nat) : Nat :=
  (tpack_max keys + 1) * smallest_uint_bytes keys.length

/-- Spec-side memory model of the FKS backend, from the spec words
"memFKS ≈ N * (α * indexWidth + 2 * wordSize + 1 + sizeof(K))" with α = 3
and wordSize = 8 (for the refinement claim on the selector). -/
def spec_memFKS (s_key : Nat) (keys : List Nat) : Nat :=
  keys.length * (3 * smallest_uint_bytes keys.length + 2 * 8 + 1 + s_key)

/-- Embedding of `fks_impl::size()` (src/unnamed/part_002, fks.tpp): the
pack size `N`. -/
def fks_size (keys : List Nat) : Nat := keys.length

/-- Embedding of `fks_impl::not_found()` (fks.tpp): equals `size()`. -/
def fks_not_found (keys : List Nat) : Nat := fks_size keys

/-- Embedding of `fks_impl::buckets()` (fks.tpp):
`ceil_pow2(size() ? size() : 1)`. -/
def fks_buckets (keys : List Nat) : Nat :=
  ceil_pow2 (if fks_size keys = 0 then 1 else fks_size keys)

/-- The counting loop of `details::compute_bucket_counts` (fks.tpp):
`counts[bucket_of(keys[i], M)]++` over the keys in pack order. -/
def counts_loop (m : Nat) : List Nat → (Nat → Nat) → (Nat → Nat)
  | [], cnt => cnt
  | k :: ks, cnt => counts_loop m ks (upd cnt (bucket_of k m) (cnt (bucket_of k m) + 1))

/-- Embedding of `details::compute_bucket_counts` (fks.tpp). -/
def compute_bucket_counts (keys : List Nat) (m : Nat) : Nat → Nat :=
  counts_loop m keys (fun _ => 0)

/-- Embedding of `details::offsets_from_counts` (fks.tpp):
`off[0] = 0`, `off[b+1] = off[b] + counts[b]`. -/
def offsets_from_counts (cnt : Nat → Nat) : Nat → Nat
  | 0 => 0
  | b + 1 => offsets_from_counts cnt b + cnt b

/-- The write loop of `details::items_csr` (fks.tpp): state is the pair
`(items, fill)`; key index `i` is written to `items[off[b] + fill[b]++]`
where `b` is the bucket of the `i`-th key. -/
def items_loop (m : Nat) (off : Nat → Nat) :
    List Nat → Nat → (Nat → Nat) × (Nat → Nat) → (Nat → Nat) × (Nat → Nat)
  | [], _, st => st
  | k :: ks, i, st =>
      let b := bucket_of k m
      let pos := off b + st.2 b
      items_loop m off ks (i + 1) (upd st.1 pos i, upd st.2 b (st.2 b + 1))

/-- Embedding of `details::items_csr` (fks.tpp): both scratch arrays start
at zero; the result is the `items` component. -/
def items_csr (keys : List Nat) (m : Nat) (off : Nat → Nat) : Nat → Nat :=
  (items_loop m off keys 0 ((fun _ => 0), (fun _ => 0))).1

/-- Embedding of `details::compute_rbits` (fks.tpp): per-bucket second-level
log-size; `s * s` is `std::size_t` arithmetic, hence `% 2 ^ 64`. -/
def compute_rbits (cnt : Nat → Nat) (b : Nat) : Nat :=
  let s := cnt b
  let target := if s ≤ 1 then 1 else (s * s) % word_mod
  ceil_log2 target

/-- Embedding of `details::base_from_rbits` (fks.tpp): prefix sums of the
second-level sizes `1 << r[b]` (modelled as `2 ^ r b`; the source shift is
defined for the `r ≤ 63` regime covered by the theorems below). -/
def base_from_rbits (r : Nat → Nat) : Nat → Nat
  | 0 => 0
  | b + 1 => base_from_rbits r b + 2 ^ r b

/-- Embedding of `details::total_slots_from_rbits` (fks.tpp): the sum of
all second-level sizes `1 << r[b]` over `b < m`. -/
def total_slots_from_rbits (r : Nat → Nat) : Nat → Nat
  | 0 => 0
  | b + 1 => total_slots_from_rbits r b + 2 ^ r b

/-- First-level counts of the `fks_impl` constructor for a key pack. -/
def fks_counts (keys : List Nat) : Nat → Nat :=
  compute_bucket_counts keys (fks_buckets keys)

/-- First-level CSR offsets of the `fks_impl` constructor. -/
def fks_offs (keys : List Nat) : Nat → Nat :=
  offsets_from_counts (fks_counts keys)

/-- Per-bucket second-level log-sizes (`_local_bits`) of `fks_impl`. -/
def fks_rbits (keys : List Nat) (b : Nat) : Nat :=
  compute_rbits (fks_counts keys) b

/-- Per-bucket base offsets (`_base_offset`) of `fks_impl`. -/
def fks_base (keys : List Nat) : Nat → Nat :=
  base_from_rbits (fks_rbits keys)

/-- Embedding of `fks_impl::slots()` (fks.tpp). -/
def fks_slots (keys : List Nat) : Nat :=
  total_slots_from_rbits (fks_rbits keys) (fks_buckets keys)

/-- CSR items array of the `fks_impl` constructor. -/
def fks_items (keys : List Nat) : Nat → Nat :=
  items_csr keys (fks_buckets keys) (fks_offs keys)

/-- Embedding of the membership array `_keys_by_index` of `fks_impl`:
`_keys_by_index[i] = keys[i]`. -/
def fks_keys_by_index (keys : List Nat) (i : Nat) : Nat :=
  keys.getD i 0

/-- First-level bucket of the `i`-th declared key (support notation for
reasoning about the constructor's CSR layout). -/
def keyB (keys : List Nat) (i : Nat) : Nat :=
  bucket_of (keys.getD i 0) (fks_buckets keys)

/-- Rank of the `i`-th declared key inside its bucket's CSR segment: the
number of earlier declared keys falling into the same bucket. -/
def keyRank (keys : List Nat) (i : Nat) : Nat :=
  (keys.take i).countP
    (fun k => bucket_of k (fks_buckets keys) == keyB keys i)

/-- The candidate odd multiplier derived from a seed in the `fks_impl`
constructor: `a = mix_native(seed) | 1`. -/
def seedA (seed : Nat) : Nat := mix_native seed ||| 1

/-- The `O(s^2)` pairwise-distinctness double loop of the `fks_impl`
constructor, as a Boolean on the list of candidate local positions. -/
def distinct_list : List Nat → Bool
  | [] => true
  | x :: xs => (xs.all fun y => x != y) && distinct_list xs

/-- A second-level local position: `top_bits(mix_native(key) * a, r)` with
the `std::size_t` product reduced `% 2 ^ 64` (fks.tpp, constructor step 5
and `fks_impl::local_pos`). -/
def local_pos_of (key a r : Nat) : Nat :=
  top_bits ((mix_native key * a) % word_mod) r

/-- The keys of bucket `b` in declaration order, read back through the CSR
arrays exactly as the constructor's per-bucket loop does:
`keys[items[off[b] + j]]` for `j < counts[b]`. -/
def bucket_key_list (keys : List Nat) (b : Nat) : List Nat :=
  (List.range (fks_counts keys b)).map
    (fun j => keys.getD (fks_items keys (fks_offs keys b + j)) 0)

/-- Success of one iteration of the unbounded seed search: the candidate
local positions of the bucket's keys are pairwise distinct. -/
def seed_ok (bkeys : List Nat) (r seed : Nat) : Bool :=
  distinct_list (bkeys.map fun k => local_pos_of k (seedA seed) r)

/-- The seed search predicate: trial number `n` (i.e. `seed = n + 1`, the
loop starts at `seed = 1`) succeeds. -/
def seedP (bkeys : List Nat) (r n : Nat) : Prop :=
  seed_ok bkeys r (n + 1) = true

instance seedP_dec (bkeys : List Nat) (r : Nat) : DecidablePred (seedP bkeys r) :=
  fun n => inferInstanceAs (Decidable (seed_ok bkeys r (n + 1) = true))

/-- Termination of the `for (seed = 1;; ++seed)` search of the `fks_impl`
constructor for every non-empty bucket: some trial succeeds. -/
def seeds_exist (keys : List Nat) : Prop :=
  ∀ b, b < fks_buckets keys → 0 < fks_counts keys b →
    ∃ n, seedP (bucket_key_list keys b) (fks_rbits keys b) n

/-- The multiplier committed to `_local_multiplier[b]` by the constructor:
the `a` of the first successful seed for a non-empty bucket, `1` for empty
buckets (and for the out-of-range `b` the source never reads). -/
def fks_mult (keys : List Nat) (h : seeds_exist keys) (b : Nat) : Nat :=
  if hb : b < fks_buckets keys ∧ 0 < fks_counts keys b then
    seedA (Nat.find (h b hb.1 hb.2) + 1)
  else 1

/-- The value committed by iteration `j` of bucket `b`'s commit loop:
`idx = items[off[b] + j]` (the dense index, final pack order). -/
def fks_witem (keys : List Nat) (b j : Nat) : Nat :=
  fks_items keys (fks_offs keys b + j)

/-- The global slot position written by iteration `j` of bucket `b`'s
commit loop: `pos = base[b] + local[j]`. -/
def fks_wpos (keys : List Nat) (h : seeds_exist keys) (b j : Nat) : Nat :=
  fks_base keys b +
    local_pos_of (keys.getD (fks_witem keys b j) 0) (fks_mult keys h b)
      (fks_rbits keys b)

/-- The commit loop for one bucket of the `fks_impl` constructor:
`_slot_to_index[base[b] + local[j]] = items[off[b] + j]` for `j < s`. -/
def fks_write_bucket (keys : List Nat) (h : seeds_exist keys)
    (slot : Nat → Nat) (b : Nat) : Nat → Nat :=
  (List.range (fks_counts keys b)).foldl
    (fun sl j => upd sl (fks_wpos keys h b j) (fks_witem keys b j))
    slot

/-- Embedding of `_slot_to_index` as left by the `fks_impl` constructor:
initialized to the sentinel `N`, then each bucket commits its keys. -/
def fks_slot_to_index (keys : List Nat) (h : seeds_exist keys) : Nat → Nat :=
  (List.range (fks_buckets keys)).foldl (fks_write_bucket keys h)
    (fun _ => fks_not_found keys)

/-- Embedding of `fks_impl::local_pos` (fks.tpp). -/
def fks_local_pos (keys : List Nat) (h : seeds_exist keys) (b key : Nat) : Nat :=
  local_pos_of key (fks_mult keys h b) (fks_rbits keys b)

/-- Embedding of `fks_impl::operator()` (fks.tpp): first-level mask, local
position, flat-slot read, sentinel test, then the membership guard against
`_keys_by_index`. -/
def fks_lookup (keys : List Nat) (h : seeds_exist keys) (key : Nat) : Nat :=
  let mixed := mix_native key
  let b := mixed &&& (fks_buckets keys - 1)
  let pos := fks_base keys b + fks_local_pos keys h b key
  let v := fks_slot_to_index keys h pos
  if v = fks_size keys then fks_size keys
  else if fks_keys_by_index keys v = key then v else fks_size keys

/-- Observable state of one `etools::memory::slot<T>` cell
(src/etools/memory/slot.hpp/.tpp): the `_constructed` flag, the object
actually alive in the aligned buffer (`none` after destruction or before
any construction), and the log of destructor calls (the destroyed values,
in order). -/
structure SlotState where
  constructed : Bool
  obj : Option Nat
  destroyed : List (Option Nat)
deriving DecidableEq

/-- Embedding of `slot<T>::destroy` (slot.tpp): no-op when not constructed,
otherwise run the destructor and clear the flag. -/
def slot_destroy (st : SlotState) : SlotState :=
  if st.constructed = false then st
  else { constructed := false, obj := none, destroyed := st.destroyed ++ [st.obj] }

/-- Embedding of `slot<T>::emplace` (slot.tpp).  `ctor` is the outcome of
the forwarded constructor call: `some v` constructs the value `v`, `none`
models a constructor that throws.  The source order is kept: destroy if
constructed, set `_constructed = true`, then run the placement-new; on a
throw the exception propagates (`none` result) after the flag was set. -/
def slot_emplace (st : SlotState) (ctor : Option Nat) : Option Nat × SlotState :=
  let st1 := if st.constructed then slot_destroy st else st
  let st2 := { st1 with constructed := true }
  match ctor with
  | some v => (some v, { st2 with obj := some v })
  | none => (none, st2)

/-- Embedding of `slot<T>::construct` (slot.tpp) with the debug assertion
compiled out (`NDEBUG`): the body delegates unconditionally to `emplace`. -/
def slot_construct (st : SlotState) (ctor : Option Nat) : Option Nat × SlotState :=
  slot_emplace st ctor

/-- Embedding of `slot<T>::get` (slot.tpp): null unless `_constructed`;
a non-null result is the (fixed) buffer address, modelled `some ()`. -/
def slot_get (st : SlotState) : Option Unit :=
  if st.constructed then some () else none

/-- Compile-time data of one `static_factory` instantiation
(src/etools/factories/static_factory.tpp): the MPH lookup of the extracted
key set, the per-derived-type constructibility of the call's argument
signature (`std::is_constructible_v<T, Args&&...>`), and
`capacity = sizeof...(DerivedTypes)`. -/
structure Factory where
  mph : Nat → Nat
  ctorOk : Nat → Bool
  capacity : Nat

/-- Pointwise update of the per-type cell bank. -/
def upd_cells (cells : Nat → SlotState) (i : Nat) (s : SlotState) :
    Nat → SlotState :=
  fun j => if j = i then s else cells j

/-- Embedding of `static_factory::try_emplace_if_constructible`
(static_factory.tpp): when `DerivedTypes[j]` is constructible from the
forwarded arguments, `slot<T>::emplace` runs on cell `j` (constructing the
value `v`) and the base pointer (modelled `some j`) is stored into `out`;
otherwise the branch is a no-op returning `false`. -/
def try_emplace_if_constructible (f : Factory) (j v : Nat) (out : Option Nat)
    (cells : Nat → SlotState) : Bool × Option Nat × (Nat → SlotState) :=
  if f.ctorOk j then
    (true, some j, upd_cells cells j (slot_emplace (cells j) (some v)).2)
  else (false, out, cells)

/-- One term of the fold expression
`((index == Is ? try_emplace(...) : false) || ...)` of
`static_factory::dispatch_fold` (static_factory.tpp): once a term returned
`true` the disjunction short-circuits; a non-matching `Is` contributes
`false` with no effect. -/
def dispatch_step (f : Factory) (index v : Nat)
    (acc : Bool × Option Nat × (Nat → SlotState)) (j : Nat) :
    Bool × Option Nat × (Nat → SlotState) :=
  if acc.1 then acc
  else if index = j then try_emplace_if_constructible f j v acc.2.1 acc.2.2
  else acc

/-- Embedding of `static_factory::dispatch_fold` (static_factory.tpp): the
short-circuiting fold over `Is = 0, ..., capacity - 1`, threading `result`
and the cells. -/
def dispatch_fold (f : Factory) (index v : Nat) (cells : Nat → SlotState) :
    Option Nat × (Nat → SlotState) :=
  let r := (List.range f.capacity).foldl (dispatch_step f index v)
    (false, none, cells)
  (r.2.1, r.2.2)

/-- Embedding of `static_factory::emplace` (static_factory.tpp): MPH
lookup, the `index >= capacity` miss test, then the dispatch fold. -/
def factory_emplace (f : Factory) (key v : Nat) (cells : Nat → SlotState) :
    Option Nat × (Nat → SlotState) :=
  let index := f.mph key
  if f.capacity ≤ index then (none, cells)
  else dispatch_fold f index v cells

theorem upd_same (f : Nat → Nat) (i v : Nat) : upd f i v i = v := by
  simp [upd]

theorem upd_ne (f : Nat → Nat) {i j : Nat} (v : Nat) (h : j ≠ i) :
    upd f i v j = f j := by
  simp [upd, h]

theorem tpack_foldl_ge_init (ks : List Nat) (m : Nat) :
    m ≤ ks.foldl (fun m x => if m < x then x else m) m := by
  induction ks generalizing m with
  | nil => simp
  | cons x xs ih =>
    simp only [List.foldl_cons]
    refine le_trans ?_ (ih _)
    split <;> omega

theorem tpack_foldl_ge_mem (ks : List Nat) (m : Nat) :
    ∀ k ∈ ks, k ≤ ks.foldl (fun m x => if m < x then x else m) m := by
  induction ks generalizing m with
  | nil => simp
  | cons x xs ih =>
    intro k hk
    rcases List.mem_cons.mp hk with rfl | hk
    · simp only [List.foldl_cons]
      refine le_trans ?_ (tpack_foldl_ge_init xs _)
      split <;> omega
    · simp only [List.foldl_cons]
      exact ih _ k hk

theorem le_tpack_max {keys : List Nat} {k : Nat} (h : k ∈ keys) :
    k ≤ tpack_max keys := by
  cases keys with
  | nil => cases h
  | cons x xs =>
    rcases List.mem_cons.mp h with rfl | h
    · exact tpack_foldl_ge_init xs k
    · exact tpack_foldl_ge_mem xs x k h

theorem llut_write_keys_not_mem (t : Nat → Nat) (idx : Nat) (ks : List Nat)
    (c : Nat) (h : c ∉ ks) : llut_write_keys t idx ks c = t c := by
  induction ks generalizing t idx with
  | nil => rfl
  | cons k ks ih =>
    simp only [List.mem_cons, not_or] at h
    rw [llut_write_keys, ih _ _ h.2, upd_ne _ _ h.1]

theorem llut_write_keys_get (t : Nat → Nat) (idx : Nat) (ks : List Nat)
    (hnd : ks.Nodup) (i : Nat) (hi : i < ks.length) :
    llut_write_keys t idx ks (ks.get ⟨i, hi⟩) = idx + i := by
  induction ks generalizing t idx i with
  | nil => exact absurd hi (Nat.not_lt_zero i)
  | cons k ks ih =>
    rcases List.nodup_cons.mp hnd with ⟨hk, hnd2⟩
    cases i with
    | zero =>
      show llut_write_keys (upd t k idx) (idx + 1) ks k = idx + 0
      rw [llut_write_keys_not_mem _ _ _ _ hk, upd_same, Nat.add_zero]
    | succ i =>
      show llut_write_keys (upd t k idx) (idx + 1) ks (ks.get ⟨i, _⟩) = idx + (i + 1)
      rw [ih _ _ hnd2 i (Nat.lt_of_succ_lt_succ hi)]
      omega

theorem llut_make_table_get (keys : List Nat) (hnd : keys.Nodup) (i : Nat)
    (hi : i < keys.length) :
    llut_make_table keys (keys.get ⟨i, hi⟩) = i := by
  unfold llut_make_table
  rw [llut_write_keys_get _ _ _ hnd i hi, Nat.zero_add]

theorem llut_make_table_not_mem (keys : List Nat) (c : Nat) (h : c ∉ keys) :
    llut_make_table keys c = llut_not_found keys :=
  llut_write_keys_not_mem _ _ _ _ h

theorem llut_lookup_hit (keys : List Nat) (hnd : keys.Nodup) {i : Nat}
    (hi : i < keys.length) : llut_lookup keys (keys.get ⟨i, hi⟩) = i := by
  have hmem : keys.get ⟨i, hi⟩ ∈ keys := keys.get_mem i hi
  have hle : keys.get ⟨i, hi⟩ ≤ tpack_max keys := le_tpack_max hmem
  unfold llut_lookup
  rw [if_neg (by unfold llut_size; omega)]
  simp only
  rw [llut_make_table_get keys hnd i hi,
    if_neg (by unfold llut_keys_count; omega)]

theorem llut_lookup_miss (keys : List Nat) {key : Nat} (hk : key ∉ keys) :
    llut_lookup keys key = llut_not_found keys := by
  unfold llut_lookup
  split
  · rfl
  · simp only
    rw [llut_make_table_not_mem keys key hk]
    split <;> rfl

theorem llut_lookup_oor (keys : List Nat) {key : Nat}
    (h : tpack_max keys < key) :
    llut_lookup keys key = llut_not_found keys := by
  unfold llut_lookup
  rw [if_pos (by unfold llut_size; omega)]

/-- C2: for every non-empty pack of pairwise-distinct unsigned keys, the
direct table `llut_impl` maps the key at declared position `i` to `i`,
maps every other key to the sentinel `N`, and in particular maps every key
greater than the maximum registered key (out of range of the backing
array) to the sentinel. -/
theorem llut_correct (keys : List Nat) (hnd : keys.Nodup) (hne : keys ≠ []) :
    (∀ i (hi : i < keys.length), llut_lookup keys (keys.get ⟨i, hi⟩) = i) ∧
    (∀ key, key ∉ keys → llut_lookup keys key = llut_not_found keys) ∧
    (∀ key, tpack_max keys < key → llut_lookup keys key = llut_not_found keys) :=
  ⟨fun i hi => llut_lookup_hit keys hnd hi,
   fun key hk => llut_lookup_miss keys hk,
   fun key h => llut_lookup_oor keys h⟩

/-- Witness for the C2 theorem at the spec scenario S1 key set `{2, 5, 7}`
over an 8-bit key type. -/
theorem llut_correct_witness :
    (∀ i (hi : i < ([2, 5, 7] : List Nat).length),
      llut_lookup [2, 5, 7] (([2, 5, 7] : List Nat).get ⟨i, hi⟩) = i) ∧
    (∀ key, key ∉ ([2, 5, 7] : List Nat) →
      llut_lookup [2, 5, 7] key = llut_not_found [2, 5, 7]) ∧
    (∀ key, tpack_max [2, 5, 7] < key →
      llut_lookup [2, 5, 7] key = llut_not_found [2, 5, 7]) :=
  llut_correct [2, 5, 7] (by decide) (by decide)

/-- C3 counterexample: for the key set `{2, 5, 7}`, the LLUT backend's
`not_found()` sentinel is `3` while its `size()` member returns the table
capacity `8`, so `sentinel() == size()` fails for the LLUT backend. -/
theorem llut_sentinel_ne_size :
    llut_not_found [2, 5, 7] = 3 ∧ llut_size [2, 5, 7] = 8 ∧
    llut_size [2, 5, 7] ≠ llut_not_found [2, 5, 7] := by
  refine ⟨rfl, by decide, by decide⟩

/-- C3 amended: for every key pack, each backend's sentinel equals the
number of registered keys `N`; for FKS this is `not_found() == size() == N`,
while for LLUT it is `not_found() == keys() == N` and the LLUT member named
`size()` instead returns the backing-array capacity `max(keys) + 1`. -/
theorem sentinel_identity (keys : List Nat) :
    (fks_not_found keys = fks_size keys ∧ fks_size keys = keys.length) ∧
    (llut_not_found keys = llut_keys_count keys ∧
      llut_keys_count keys = keys.length) ∧
    llut_size keys = tpack_max keys + 1 :=
  ⟨⟨rfl, rfl⟩, ⟨rfl, rfl⟩, rfl⟩

set_option maxRecDepth 16384 in
/-- C8 counterexample: 256 distinct 64-bit keys `{2^63, 0, 1, ..., 254}`
(`sizeof(KeyType) = 8`, `index_t = uint16_t`): the source's `std::size_t`
product `K * s_index = (2^63 + 1) * 2` wraps to `2`, so the selector picks
LLUT, although the unbounded modelled LLUT memory `2^64 + 2` strictly
exceeds the modelled FKS memory `7936` and the original claim demands
FKS. -/
theorem use_fks_wrap_llut :
    use_fks 8 3 (2 ^ 63 :: List.range 255) = false ∧
    (2 ^ 63 :: List.range 255).Nodup ∧
    spec_memLLUT (2 ^ 63 :: List.range 255) = 2 ^ 64 + 2 ∧
    spec_memFKS 8 (2 ^ 63 :: List.range 255) = 7936 ∧
    spec_memLLUT (2 ^ 63 :: List.range 255) >
      spec_memFKS 8 (2 ^ 63 :: List.range 255) := by
  refine ⟨by decide, by decide, by decide, by decide, by decide⟩

/-- C8 amended: the selector's comparison is `std::size_t` arithmetic, so
the MPH selector chooses FKS exactly when the modelled LLUT memory
`(max(Keys) + 1) * sizeof(index_t)` strictly exceeds the modelled FKS
memory `N * (3 * sizeof(index_t) + 2 * sizeof(size_t) + 1 + sizeof(K))`
with both sides reduced `% 2 ^ 64` (default `AlphaScaled = 3`); on
`K = uint16_t` the key set `{2, 5, 7, 8, 9}` still selects LLUT while
`{1, 10000, 60000}` still selects FKS. -/
theorem optimal_mph_selector :
    (∀ s_key keys,
      use_fks s_key 3 keys =
        decide (spec_memLLUT keys % word_mod >
          spec_memFKS s_key keys % word_mod)) ∧
    use_fks 2 3 [2, 5, 7, 8, 9] = false ∧
    use_fks 2 3 [1, 10000, 60000] = true := by
  refine ⟨fun s_key keys => ?_, by decide, by decide⟩
  simp only [use_fks, spec_memLLUT, spec_memFKS]
  rw [Nat.mod_mul_mod]

/-- C10: with the debug assertion disabled, `slot<T>::construct` on a live
cell behaves exactly like `emplace` (replace): it destroys the prior
object, constructs the new one into the same buffer and returns the
pointer to it; it never placement-constructs over a still-live object,
because `construct` delegates unconditionally to `emplace`. -/
theorem construct_on_live_replaces (st : SlotState) (v : Nat)
    (h : st.constructed = true) :
    slot_construct st (some v) =
      (some v,
        { constructed := true, obj := some v,
          destroyed := st.destroyed ++ [st.obj] }) ∧
    slot_construct st (some v) = slot_emplace st (some v) := by
  refine ⟨?_, rfl⟩
  simp [slot_construct, slot_emplace, slot_destroy, h]

/-- Witness for the C10 theorem: a cell holding the value `5` is replaced
by the value `7`, destroying `5` exactly once. -/
theorem construct_on_live_replaces_witness :
    slot_construct ⟨true, some 5, []⟩ (some 7) =
      (some 7, ⟨true, some 7, [some 5]⟩) ∧
    slot_construct ⟨true, some 5, []⟩ (some 7) =
      slot_emplace ⟨true, some 5, []⟩ (some 7) :=
  construct_on_live_replaces ⟨true, some 5, []⟩ 7 rfl

/-- C5: evaluation of the slot model at the failing input.  A throwing
constructor during `emplace`/`construct` does NOT leave the cell in its
pre-operation state: starting from an empty cell, `get()` returned null
before the call, but the source sets `_constructed = true` before running
the placement-new, so after the exception propagates `get()` returns
non-null; on a live cell the prior object is already destroyed when the
exception escapes while the flag remains set. -/
theorem emplace_throw_corrupts_cell :
    slot_get ⟨false, none, []⟩ = none ∧
    slot_emplace ⟨false, none, []⟩ none = (none, ⟨true, none, []⟩) ∧
    slot_get ⟨true, none, []⟩ = some () ∧
    slot_emplace ⟨true, some 5, []⟩ none = (none, ⟨true, none, [some 5]⟩) :=
  ⟨rfl, rfl, rfl, rfl⟩

theorem foldl_dispatch_done (f : Factory) (index v : Nat) (l : List Nat)
    (acc : Bool × Option Nat × (Nat → SlotState)) (h : acc.1 = true) :
    l.foldl (dispatch_step f index v) acc = acc := by
  induction l with
  | nil => rfl
  | cons j l ih =>
    simp only [List.foldl_cons, dispatch_step, h, if_true]
    exact ih

theorem foldl_dispatch_not_mem (f : Factory) (index v : Nat) (l : List Nat)
    (acc : Bool × Option Nat × (Nat → SlotState)) (h : index ∉ l) :
    l.foldl (dispatch_step f index v) acc = acc := by
  induction l generalizing acc with
  | nil => rfl
  | cons j l ih =>
    simp only [List.mem_cons, not_or] at h
    simp only [List.foldl_cons]
    have hstep : dispatch_step f index v acc j = acc := by
      unfold dispatch_step
      split
      · rfl
      · rw [if_neg h.1]
    rw [hstep]
    exact ih _ h.2

theorem foldl_dispatch_range (f : Factory) (index v : Nat) (n : Nat)
    (hidx : index < n) (cells : Nat → SlotState) :
    (List.range n).foldl (dispatch_step f index v) (false, none, cells) =
      if f.ctorOk index then
        (true, some index,
          upd_cells cells index (slot_emplace (cells index) (some v)).2)
      else (false, none, cells) := by
  induction n with
  | zero => exact absurd hidx (Nat.not_lt_zero index)
  | succ n ih =>
    rw [List.range_succ, List.foldl_append]
    rcases Nat.lt_or_ge index n with hlt | hge
    · rw [ih hlt]
      split
      · exact foldl_dispatch_done _ _ _ _ _ rfl
      · simp only [List.foldl_cons, List.foldl_nil]
        unfold dispatch_step
        rw [if_neg (by simp), if_neg (by omega)]
    · have hEq : index = n := by omega
      subst hEq
      rw [foldl_dispatch_not_mem _ _ _ _ _
        (fun hmem => absurd (List.mem_range.mp hmem) (lt_irrefl index))]
      show dispatch_step f index v (false, none, cells) index = _
      unfold dispatch_step try_emplace_if_constructible
      simp

/-- C4: `static_factory::emplace(key, args...)` returns null exactly when
the key is not registered (the MPH lookup is at or beyond the sentinel
`capacity`) or the derived type selected for the key is not constructible
from the forwarded arguments; in every null-returning case no storage cell
is constructed, destroyed or otherwise mutated. -/
theorem factory_emplace_null_iff (f : Factory) (key v : Nat)
    (cells : Nat → SlotState) :
    ((factory_emplace f key v cells).1 = none ↔
      f.capacity ≤ f.mph key ∨ f.ctorOk (f.mph key) = false) ∧
    ((factory_emplace f key v cells).1 = none →
      (factory_emplace f key v cells).2 = cells) := by
  unfold factory_emplace
  rcases Nat.lt_or_ge (f.mph key) f.capacity with hlt | hge
  · rw [if_neg (by omega)]
    unfold dispatch_fold
    rw [foldl_dispatch_range f (f.mph key) v f.capacity hlt cells]
    by_cases hok : f.ctorOk (f.mph key) = true
    · rw [if_pos hok]
      constructor
      · constructor
        · intro h
          simp at h
        · intro h
          rcases h with h | h
          · omega
          · rw [hok] at h
            cases h
      · intro h
        simp at h
    · rw [if_neg hok]
      have hfalse : f.ctorOk (f.mph key) = false := by
        cases hokv : f.ctorOk (f.mph key)
        · rfl
        · exact absurd hokv hok
      exact ⟨by simp [hfalse], fun _ => rfl⟩
  · rw [if_pos hge]
    exact ⟨by simp [hge], fun _ => rfl⟩

theorem word_mod_pos : 0 < word_mod :=
  Nat.pos_pow_of_pos _ (by norm_num)

theorem word_mod_eq : word_mod = 2 ^ 64 := rfl

theorem shiftRight_le_self (x k : Nat) : x >>> k ≤ x := by
  rw [Nat.shiftRight_eq_div_pow]
  exact Nat.div_le_self _ _

theorem xor_shift_lt {x n : Nat} (k : Nat) (hx : x < 2 ^ n) :
    x ^^^ (x >>> k) < 2 ^ n :=
  Nat.xor_lt_two_pow hx (lt_of_le_of_lt (shiftRight_le_self x k) hx)

theorem or_shift_lt {x n : Nat} (k : Nat) (hx : x < 2 ^ n) :
    x ||| (x >>> k) < 2 ^ n :=
  Nat.or_lt_two_pow hx (lt_of_le_of_lt (shiftRight_le_self x k) hx)

theorem mix_u64_lt (x : Nat) : mix_u64 x < word_mod := by
  show mix_u64 x < 2 ^ 64
  simp only [mix_u64]
  exact xor_shift_lt 31 (Nat.mod_lt _ word_mod_pos)

theorem mix_native_lt (key : Nat) : mix_native key < word_mod :=
  mix_u64_lt _

theorem top_bits_lt {x : Nat} (hx : x < word_mod) (r : Nat) :
    top_bits x r < 2 ^ r := by
  rw [word_mod_eq] at hx
  simp only [top_bits, word_bits]
  split
  · exact Nat.pos_pow_of_pos _ (by norm_num)
  · rw [Nat.shiftRight_eq_div_pow]
    rcases le_or_lt r 64 with hr | hr
    · rw [Nat.div_lt_iff_lt_mul (Nat.pos_pow_of_pos _ (by norm_num))]
      calc x < 2 ^ 64 := hx
        _ = 2 ^ r * 2 ^ (64 - r) := by rw [← pow_add]; congr 1; omega
    · have h0 : 64 - r = 0 := by omega
      rw [h0]
      simp only [pow_zero, Nat.div_one]
      exact lt_trans hx (Nat.pow_lt_pow_right (by norm_num) hr)

theorem bucket_of_lt {m : Nat} (hm : 0 < m) (k : Nat) : bucket_of k m < m :=
  lt_of_le_of_lt Nat.and_le_right (by omega)

theorem ceil_pow2_pos {x : Nat} (hx : x ≤ 2 ^ 63) : 0 < ceil_pow2 x := by
  unfold ceil_pow2
  split
  · exact Nat.one_pos
  · next hgt =>
    simp only
    have h1 : x - 1 < 2 ^ 63 := by omega
    have h2 := or_shift_lt 1 h1
    have h3 := or_shift_lt 2 h2
    have h4 := or_shift_lt 4 h3
    have h5 := or_shift_lt 8 h4
    have h6 := or_shift_lt 16 h5
    have h7 := or_shift_lt 32 h6
    have hw : (2 : Nat) ^ 63 < word_mod := by
      rw [word_mod_eq]
      norm_num
    rw [Nat.mod_eq_of_lt (by omega)]
    omega

theorem bw_step_spec (w x : Nat) (p : Nat × Nat) (hv : p.1 = x / 2 ^ p.2)
    (h0 : 0 < p.1) (hb : p.1 < 2 ^ (2 * w)) :
    (bw_step w p).1 = x / 2 ^ (bw_step w p).2 ∧ 0 < (bw_step w p).1 ∧
      (bw_step w p).1 < 2 ^ w := by
  unfold bw_step
  split
  · next hc =>
    refine ⟨?_, ?_, ?_⟩
    · show p.1 >>> w = x / 2 ^ (p.2 + w)
      rw [Nat.shiftRight_eq_div_pow, hv, Nat.div_div_eq_div_mul, ← pow_add]
    · show 0 < p.1 >>> w
      exact Nat.pos_of_ne_zero hc
    · show p.1 >>> w < 2 ^ w
      rw [Nat.shiftRight_eq_div_pow]
      rw [Nat.div_lt_iff_lt_mul (Nat.pos_pow_of_pos _ (by norm_num))]
      calc p.1 < 2 ^ (2 * w) := hb
        _ = 2 ^ w * 2 ^ w := by rw [← pow_add]; congr 1; omega
  · next hc =>
    simp only [ne_eq, not_not] at hc
    rw [Nat.shiftRight_eq_div_pow] at hc
    have : p.1 < 2 ^ w := by
      by_contra hcon
      push_neg at hcon
      have := Nat.div_pos hcon (Nat.pos_pow_of_pos _ (by norm_num : (0:Nat) < 2))
      omega
    exact ⟨hv, h0, this⟩

theorem bit_width_spec (x : Nat) (h0 : 0 < x) (hx : x < 2 ^ 64) :
    2 ^ (bit_width x - 1) ≤ x ∧ x < 2 ^ (bit_width x) ∧ 1 ≤ bit_width x := by
  have h1 := bw_step_spec 32 x (x, 0) (by simp) h0 (by norm_num; exact hx)
  have h2 := bw_step_spec 16 x _ h1.1 h1.2.1 (by norm_num; exact h1.2.2)
  have h3 := bw_step_spec 8 x _ h2.1 h2.2.1 (by norm_num; exact h2.2.2)
  have h4 := bw_step_spec 4 x _ h3.1 h3.2.1 (by norm_num; exact h3.2.2)
  have h5 := bw_step_spec 2 x _ h4.1 h4.2.1 (by norm_num; exact h4.2.2)
  set q5 := bw_step 2 (bw_step 4 (bw_step 8 (bw_step 16 (bw_step 32 (x, 0))))) with hq5
  have e : bit_width x =
      (if (q5.1 >>> 1) ≠ 0 then q5.2 + 1 else q5.2) + 1 := by
    unfold bit_width
    rw [if_neg (by omega)]
    rfl
  obtain ⟨hv, hp, hb⟩ := h5
  rw [Nat.shiftRight_eq_div_pow] at e
  have hd : 0 < 2 ^ q5.2 := Nat.pos_pow_of_pos _ (by norm_num)
  have hxd : x / 2 ^ q5.2 = q5.1 := hv.symm
  have hmul_le : 2 ^ q5.2 * q5.1 ≤ x := by
    rw [← hxd, mul_comm]
    exact Nat.div_mul_le_self x _
  have hb4 : q5.1 < 4 := by norm_num at hb; exact hb
  have hlt4 : x < 4 * 2 ^ q5.2 :=
    (Nat.div_lt_iff_lt_mul hd).mp (by rw [hxd]; exact hb4)
  have hps1 : (2 : Nat) ^ (q5.2 + 1) = 2 ^ q5.2 * 2 := by rw [pow_succ]
  have hps2 : (2 : Nat) ^ (q5.2 + 2) = 2 ^ q5.2 * 4 := by
    rw [pow_add]; norm_num
  rw [e]
  split
  · next hc =>
    have hge : 2 ≤ q5.1 := by norm_num at hc; omega
    have hx2 : 2 ^ q5.2 * 2 ≤ x :=
      le_trans (Nat.mul_le_mul_left _ hge) hmul_le
    simp only [Nat.add_sub_cancel]
    refine ⟨?_, ?_, by omega⟩
    · rw [hps1]; omega
    · rw [hps2]; omega
  · next hc =>
    have hq1 : 1 ≤ q5.1 := hp
    have hx1 : 2 ^ q5.2 * 1 ≤ x :=
      le_trans (Nat.mul_le_mul_left _ hq1) hmul_le
    have hlt2 : x < 2 * 2 ^ q5.2 := by
      norm_num at hc
      exact (Nat.div_lt_iff_lt_mul hd).mp (by rw [hxd]; omega)
    simp only [Nat.add_sub_cancel]
    refine ⟨?_, ?_, by omega⟩
    · omega
    · rw [hps1]; omega

theorem ceil_log2_spec (t : Nat) (h1 : 1 ≤ t) (h2 : t ≤ 2 ^ 64) :
    t ≤ 2 ^ ceil_log2 t ∧ ceil_log2 t ≤ 64 := by
  unfold ceil_log2
  split
  · next h =>
    have : t = 1 := by omega
    subst this
    norm_num
  · next h =>
    obtain ⟨hle, hlt, h1b⟩ := bit_width_spec (t - 1) (by omega) (by omega)
    constructor
    · omega
    · by_contra hcon
      push_neg at hcon
      have hmono : (2 : Nat) ^ 64 ≤ 2 ^ (bit_width (t - 1) - 1) :=
        Nat.pow_le_pow_right (by norm_num) (by omega)
      omega

theorem counts_loop_eq (m : Nat) (ks : List Nat) (cnt : Nat → Nat) (b : Nat) :
    counts_loop m ks cnt b =
      cnt b + ks.countP (fun k => bucket_of k m == b) := by
  induction ks generalizing cnt with
  | nil => simp [counts_loop]
  | cons k ks ih =>
    show counts_loop m ks
      (upd cnt (bucket_of k m) (cnt (bucket_of k m) + 1)) b = _
    rw [ih, List.countP_cons]
    by_cases hk : bucket_of k m = b
    · rw [hk, upd_same]
      simp [hk]
      omega
    · rw [upd_ne _ _ (fun h => hk h.symm)]
      simp [hk]

theorem fks_counts_eq (keys : List Nat) (b : Nat) :
    fks_counts keys b =
      keys.countP (fun k => bucket_of k (fks_buckets keys) == b) := by
  unfold fks_counts compute_bucket_counts
  rw [counts_loop_eq]
  omega

theorem fks_counts_le (keys : List Nat) (b : Nat) :
    fks_counts keys b ≤ keys.length := by
  rw [fks_counts_eq]
  exact List.countP_le_length _

theorem offsets_succ (cnt : Nat → Nat) (b : Nat) :
    offsets_from_counts cnt (b + 1) = offsets_from_counts cnt b + cnt b := rfl

theorem offsets_le_offsets (cnt : Nat → Nat) {b b' : Nat} (h : b ≤ b') :
    offsets_from_counts cnt b ≤ offsets_from_counts cnt b' := by
  induction b' with
  | zero =>
    have hb : b = 0 := by omega
    subst hb
    exact le_refl _
  | succ n ih =>
    rcases Nat.lt_or_ge b (n + 1) with hlt | hge
    · refine le_trans (ih (by omega)) ?_
      rw [offsets_succ]
      omega
    · have hb : b = n + 1 := by omega
      subst hb
      exact le_refl _

theorem offsets_add_le (cnt : Nat → Nat) {b b' : Nat} (h : b < b') :
    offsets_from_counts cnt b + cnt b ≤ offsets_from_counts cnt b' := by
  have h2 : offsets_from_counts cnt (b + 1) ≤ offsets_from_counts cnt b' :=
    offsets_le_offsets cnt h
  rw [offsets_succ] at h2
  exact h2

theorem offs_interval_disjoint (cnt : Nat → Nat) {b b' p : Nat} (hne : b ≠ b')
    (h1 : offsets_from_counts cnt b ≤ p)
    (h2 : p < offsets_from_counts cnt b + cnt b) :
    ¬(offsets_from_counts cnt b' ≤ p ∧
      p < offsets_from_counts cnt b' + cnt b') := by
  rcases Nat.lt_or_ge b b' with hlt | hge
  · have := offsets_add_le cnt hlt
    omega
  · have hlt2 : b' < b := by omega
    have := offsets_add_le cnt hlt2
    omega

theorem base_succ (r : Nat → Nat) (b : Nat) :
    base_from_rbits r (b + 1) = base_from_rbits r b + 2 ^ r b := rfl

theorem base_le_base (r : Nat → Nat) {b b' : Nat} (h : b ≤ b') :
    base_from_rbits r b ≤ base_from_rbits r b' := by
  induction b' with
  | zero =>
    have hb : b = 0 := by omega
    subst hb
    exact le_refl _
  | succ n ih =>
    rcases Nat.lt_or_ge b (n + 1) with hlt | hge
    · refine le_trans (ih (by omega)) ?_
      rw [base_succ]
      exact Nat.le_add_right _ _
    · have hb : b = n + 1 := by omega
      subst hb
      exact le_refl _

theorem base_add_le (r : Nat → Nat) {b b' : Nat} (h : b < b') :
    base_from_rbits r b + 2 ^ r b ≤ base_from_rbits r b' := by
  have h2 : base_from_rbits r (b + 1) ≤ base_from_rbits r b' :=
    base_le_base r h
  rw [base_succ] at h2
  exact h2

theorem base_interval_disjoint (r : Nat → Nat) {b b' p : Nat} (hne : b ≠ b')
    (h1 : base_from_rbits r b ≤ p) (h2 : p < base_from_rbits r b + 2 ^ r b) :
    ¬(base_from_rbits r b' ≤ p ∧
      p < base_from_rbits r b' + 2 ^ r b') := by
  intro hand
  rcases Nat.lt_or_ge b b' with hlt | hge
  · have hle := base_add_le r hlt
    have h3 : p < base_from_rbits r b' := lt_of_lt_of_le h2 hle
    omega
  · have hlt2 : b' < b := by omega
    have hle := base_add_le r hlt2
    have h3 : p < base_from_rbits r b := lt_of_lt_of_le hand.2 hle
    omega

theorem base_eq_total (r : Nat → Nat) (n : Nat) :
    base_from_rbits r n = total_slots_from_rbits r n := by
  induction n with
  | zero => rfl
  | succ n ih =>
    rw [base_succ, ih]
    rfl


theorem countP_take_succ (l : List Nat) (p : Nat → Bool) (i : Nat)
    (hi : i < l.length) :
    (l.take (i + 1)).countP p =
      (l.take i).countP p + (if p (l.getD i 0) = true then 1 else 0) := by
  rw [List.take_succ, List.countP_append]
  congr 1
  rw [List.getElem?_eq_getElem hi]
  simp only [Option.toList_some, List.countP_cons, List.countP_nil]
  have hg : l.getD i 0 = l[i] := by
    simp [List.getD_eq_getElem?_getD, List.getElem?_eq_getElem hi]
  rw [hg]
  split <;> simp_all

theorem countP_take_mono (l : List Nat) (p : Nat → Bool) {i i' : Nat}
    (h : i ≤ i') : (l.take i).countP p ≤ (l.take i').countP p :=
  ((List.take_prefix_take_left l h).sublist).countP_le p

theorem countP_take_lt (l : List Nat) (p : Nat → Bool) {i i' : Nat}
    (h : i < i') (hi : i < l.length) (hp : p (l.getD i 0) = true) :
    (l.take i).countP p < (l.take i').countP p := by
  have h1 : (l.take i).countP p < (l.take (i + 1)).countP p := by
    rw [countP_take_succ l p i hi, if_pos hp]
    omega
  exact lt_of_lt_of_le h1 (countP_take_mono l p h)

theorem countP_take_lt_countP (l : List Nat) (p : Nat → Bool) {i : Nat}
    (hi : i < l.length) (hp : p (l.getD i 0) = true) :
    (l.take i).countP p < l.countP p := by
  have h1 := countP_take_lt l p (Nat.lt_succ_self i) hi hp
  refine lt_of_lt_of_le h1 ?_
  have h2 : List.Sublist (l.take (i + 1)) l := List.take_sublist _ _
  exact h2.countP_le p

theorem countP_nth_exists (l : List Nat) (p : Nat → Bool) (j : Nat)
    (hj : j < l.countP p) :
    ∃ i, i < l.length ∧ p (l.getD i 0) = true ∧ (l.take i).countP p = j := by
  induction l generalizing j with
  | nil => simp at hj
  | cons x xs ih =>
    rw [List.countP_cons] at hj
    by_cases hx : p x = true
    · cases j with
      | zero =>
        refine ⟨0, by simp, ?_, by simp⟩
        simpa using hx
      | succ j =>
        have hj2 : j < xs.countP p := by
          rw [if_pos hx] at hj
          omega
        obtain ⟨i, hi, hpi, hcnt⟩ := ih j hj2
        refine ⟨i + 1, by simp; omega, ?_, ?_⟩
        · simpa using hpi
        · rw [List.take_succ_cons, List.countP_cons, if_pos hx, hcnt]
    · have hx0 : (if p x = true then 1 else 0) = 0 := by
        rw [if_neg hx]
      rw [hx0] at hj
      obtain ⟨i, hi, hpi, hcnt⟩ := ih j hj
      refine ⟨i + 1, by simp; omega, ?_, ?_⟩
      · simpa using hpi
      · rw [List.take_succ_cons, List.countP_cons, if_neg hx, hcnt]
        omega

theorem items_loop_cons (m : Nat) (off : Nat → Nat) (k : Nat) (ks : List Nat)
    (i : Nat) (it fl : Nat → Nat) :
    items_loop m off (k :: ks) i (it, fl) =
      items_loop m off ks (i + 1)
        (upd it (off (bucket_of k m) + fl (bucket_of k m)) i,
         upd fl (bucket_of k m) (fl (bucket_of k m) + 1)) := rfl

theorem items_loop_frozen (m : Nat) (off : Nat → Nat) (ks : List Nat) (i : Nat)
    (it fl : Nat → Nat) (p : Nat)
    (hp : ∀ b, ¬(off b + fl b ≤ p ∧
      p < off b + fl b + ks.countP (fun k => bucket_of k m == b))) :
    (items_loop m off ks i (it, fl)).1 p = it p := by
  induction ks generalizing i it fl with
  | nil => rfl
  | cons k ks ih =>
    rw [items_loop_cons, ih]
    · apply upd_ne
      have hb0 := hp (bucket_of k m)
      rw [List.countP_cons, if_pos (beq_self_eq_true _)] at hb0
      omega
    · intro b
      by_cases hb : b = bucket_of k m
      · subst hb
        rw [upd_same]
        have hb0 := hp (bucket_of k m)
        rw [List.countP_cons, if_pos (beq_self_eq_true _)] at hb0
        omega
      · rw [upd_ne _ _ hb]
        have hb0 := hp b
        rw [List.countP_cons] at hb0
        have hfalse : (bucket_of k m == b) = false := by
          simp only [beq_eq_false_iff_ne, ne_eq]
          exact fun h => hb h.symm
        rw [hfalse] at hb0
        simpa using hb0

theorem items_loop_write (m : Nat) (cntF : Nat → Nat) (ks : List Nat)
    (i0 : Nat) (it fl : Nat → Nat) (dj : Nat) (hdj : dj < ks.length)
    (H1 : ∀ b, fl b + ks.countP (fun k => bucket_of k m == b) ≤ cntF b) :
    (items_loop m (offsets_from_counts cntF) ks i0 (it, fl)).1
      (offsets_from_counts cntF (bucket_of (ks.getD dj 0) m) +
        (fl (bucket_of (ks.getD dj 0) m) +
          (ks.take dj).countP
            (fun k => bucket_of k m == bucket_of (ks.getD dj 0) m)))
      = i0 + dj := by
  induction ks generalizing i0 it fl dj with
  | nil => simp at hdj
  | cons k ks ih =>
    rw [items_loop_cons]
    cases dj with
    | zero =>
      simp only [List.getD_cons_zero, List.take_zero, List.countP_nil,
        Nat.add_zero]
      rw [items_loop_frozen]
      · rw [upd_same]
      · intro b
        by_cases hb : b = bucket_of k m
        · subst hb
          rw [upd_same]
          omega
        · rw [upd_ne _ _ hb]
          have hbk := H1 (bucket_of k m)
          rw [List.countP_cons, if_pos (beq_self_eq_true _)] at hbk
          have hcnt1 : 1 ≤ fl (bucket_of k m) +
              (ks.countP (fun k2 => bucket_of k2 m == bucket_of k m) + 1) := by
            omega
          have hdisj := offs_interval_disjoint cntF
            (p := offsets_from_counts cntF (bucket_of k m) + fl (bucket_of k m))
            (fun h => hb h.symm)
            (Nat.le_add_right _ _) (by omega)
          have hb2 := H1 b
          have hsub : ks.countP (fun k2 => bucket_of k2 m == b) ≤
              (k :: ks).countP (fun k2 => bucket_of k2 m == b) := by
            rw [List.countP_cons]
            omega
          omega
    | succ dj =>
      have hdj2 : dj < ks.length := by
        simp only [List.length_cons] at hdj
        omega
      have H1' : ∀ b,
          (upd fl (bucket_of k m) (fl (bucket_of k m) + 1)) b +
            ks.countP (fun k2 => bucket_of k2 m == b) ≤ cntF b := by
        intro b
        by_cases hb : b = bucket_of k m
        · subst hb
          rw [upd_same]
          have := H1 (bucket_of k m)
          rw [List.countP_cons, if_pos (beq_self_eq_true _)] at this
          omega
        · rw [upd_ne _ _ hb]
          have hbb := H1 b
          rw [List.countP_cons] at hbb
          omega
      have hIH := ih (i0 + 1)
        (upd it (offsets_from_counts cntF (bucket_of k m) +
          fl (bucket_of k m)) i0)
        (upd fl (bucket_of k m) (fl (bucket_of k m) + 1)) dj hdj2 H1'
      rw [List.getD_cons_succ]
      have harith : fl (bucket_of (ks.getD dj 0) m) +
          ((k :: ks).take (dj + 1)).countP
            (fun k2 => bucket_of k2 m == bucket_of (ks.getD dj 0) m) =
          (upd fl (bucket_of k m) (fl (bucket_of k m) + 1))
              (bucket_of (ks.getD dj 0) m) +
            (ks.take dj).countP
              (fun k2 => bucket_of k2 m == bucket_of (ks.getD dj 0) m) := by
        rw [List.take_succ_cons, List.countP_cons]
        by_cases hb : bucket_of k m = bucket_of (ks.getD dj 0) m
        · rw [← hb, upd_same, if_pos (beq_self_eq_true _)]
          omega
        · rw [upd_ne _ _ (fun h => hb h.symm),
            if_neg (by rw [beq_iff_eq]; exact hb)]
          omega
      rw [harith]
      have hval : i0 + (dj + 1) = i0 + 1 + dj := by omega
      rw [hval]
      exact hIH

theorem getD_eq_getElem_of_lt (l : List Nat) {j : Nat} (hj : j < l.length) :
    l.getD j 0 = l[j] := by
  simp [List.getD_eq_getElem?_getD, List.getElem?_eq_getElem hj]

theorem getD_map_lt (l : List Nat) (f : Nat → Nat) {j : Nat}
    (hj : j < l.length) : (l.map f).getD j 0 = f (l.getD j 0) := by
  have hj2 : j < (l.map f).length := by simpa using hj
  rw [getD_eq_getElem_of_lt _ hj2, getD_eq_getElem_of_lt _ hj]
  simp

theorem getD_range_lt {n j : Nat} (hj : j < n) : (List.range n).getD j 0 = j := by
  have hj2 : j < (List.range n).length := by simpa using hj
  rw [getD_eq_getElem_of_lt _ hj2]
  simp

theorem nodup_getD_inj (l : List Nat) (hnd : l.Nodup) {i i' : Nat}
    (hi : i < l.length) (hi' : i' < l.length)
    (he : l.getD i 0 = l.getD i' 0) : i = i' := by
  rw [getD_eq_getElem_of_lt _ hi, getD_eq_getElem_of_lt _ hi'] at he
  exact List.Nodup.getElem_inj_iff hnd |>.mp he

theorem distinct_list_iff (l : List Nat) : distinct_list l = true ↔ l.Nodup := by
  induction l with
  | nil => simp [distinct_list]
  | cons x xs ih =>
    rw [distinct_list, Bool.and_eq_true, List.nodup_cons, ih]
    constructor
    · rintro ⟨h1, h2⟩
      refine ⟨?_, h2⟩
      intro hmem
      have := List.all_eq_true.mp h1 x hmem
      simp at this
    · rintro ⟨h1, h2⟩
      refine ⟨?_, h2⟩
      rw [List.all_eq_true]
      intro y hy
      simp only [bne_iff_ne, ne_eq]
      intro he
      exact h1 (he ▸ hy)

theorem fks_items_at_rank (keys : List Nat) {i : Nat} (hi : i < keys.length) :
    fks_items keys (fks_offs keys (keyB keys i) + keyRank keys i) = i := by
  have H1 : ∀ b, (fun _ => (0 : Nat)) b +
      keys.countP (fun k => bucket_of k (fks_buckets keys) == b) ≤
      fks_counts keys b := by
    intro b
    rw [fks_counts_eq]
    simp
  have hw := items_loop_write (fks_buckets keys) (fks_counts keys) keys 0
    (fun _ => 0) (fun _ => 0) i hi H1
  unfold fks_items items_csr
  unfold keyB keyRank keyB
  simpa using hw

theorem fks_rank_lt_counts (keys : List Nat) {i : Nat} (hi : i < keys.length) :
    keyRank keys i < fks_counts keys (keyB keys i) := by
  unfold keyRank
  rw [fks_counts_eq]
  refine countP_take_lt_countP keys _ hi ?_
  rw [beq_iff_eq]
  rfl

theorem fks_rank_surj (keys : List Nat) {b j : Nat}
    (hj : j < fks_counts keys b) :
    ∃ i, i < keys.length ∧ keyB keys i = b ∧ keyRank keys i = j := by
  rw [fks_counts_eq] at hj
  obtain ⟨i, hi, hpi, hcnt⟩ := countP_nth_exists keys _ j hj
  have hB : keyB keys i = b := by
    unfold keyB
    exact beq_iff_eq.mp hpi
  refine ⟨i, hi, hB, ?_⟩
  unfold keyRank
  rw [hB]
  exact hcnt

theorem fks_rank_inj (keys : List Nat) {i i' : Nat} (hi : i < keys.length)
    (hi' : i' < keys.length) (hB : keyB keys i = keyB keys i')
    (hR : keyRank keys i = keyRank keys i') : i = i' := by
  rcases lt_trichotomy i i' with h | h | h
  · exfalso
    have hlt := countP_take_lt keys
      (fun k => bucket_of k (fks_buckets keys) == keyB keys i') h hi
      (by rw [beq_iff_eq, ← hB]; rfl)
    unfold keyRank at hR
    rw [hB] at hR
    omega
  · exact h
  · exfalso
    have hlt := countP_take_lt keys
      (fun k => bucket_of k (fks_buckets keys) == keyB keys i) h hi'
      (by rw [beq_iff_eq, hB]; rfl)
    unfold keyRank at hR
    rw [hB] at hR hlt
    omega

theorem foldl_upd_frozen (l : List Nat) (P V : Nat → Nat) (sl : Nat → Nat)
    (p : Nat) (h : ∀ j ∈ l, P j ≠ p) :
    (l.foldl (fun s j => upd s (P j) (V j)) sl) p = sl p := by
  induction l generalizing sl with
  | nil => rfl
  | cons j l ih =>
    rw [List.foldl_cons,
      ih _ (fun j2 hj2 => h j2 (List.mem_cons_of_mem _ hj2))]
    exact upd_ne _ _ (fun he => h j (List.mem_cons_self _ _) he.symm)

theorem foldl_upd_write (l : List Nat) (P V : Nat → Nat) (sl : Nat → Nat)
    {j0 : Nat} (hmem : j0 ∈ l)
    (huniq : ∀ j ∈ l, j ≠ j0 → P j ≠ P j0) :
    (l.foldl (fun s j => upd s (P j) (V j)) sl) (P j0) = V j0 := by
  induction l generalizing sl with
  | nil => cases hmem
  | cons j l ih =>
    rw [List.foldl_cons]
    by_cases hj : j = j0
    · subst hj
      by_cases htail : j ∈ l
      · exact ih _ htail (fun j2 h2 => huniq j2 (List.mem_cons_of_mem _ h2))
      · rw [foldl_upd_frozen l P V _ _
          (fun j2 hj2 => huniq j2 (List.mem_cons_of_mem _ hj2)
            (fun he => htail (he ▸ hj2)))]
        exact upd_same _ _ _
    · have hmem2 : j0 ∈ l :=
        (List.mem_cons.mp hmem).resolve_left (fun he => hj he.symm)
      exact ih _ hmem2 (fun j2 h2 => huniq j2 (List.mem_cons_of_mem _ h2))

theorem foldl_upd_cases (l : List Nat) (P V : Nat → Nat) (sl : Nat → Nat)
    (p : Nat) :
    (l.foldl (fun s j => upd s (P j) (V j)) sl) p = sl p ∨
      ∃ j ∈ l, (l.foldl (fun s j => upd s (P j) (V j)) sl) p = V j := by
  induction l generalizing sl with
  | nil => exact Or.inl rfl
  | cons j l ih =>
    rw [List.foldl_cons]
    rcases ih (upd sl (P j) (V j)) with hcase | ⟨j2, hj2, hv⟩
    · by_cases hp : p = P j
      · right
        refine ⟨j, List.mem_cons_self _ _, ?_⟩
        rw [hcase, hp, upd_same]
      · left
        rw [hcase]
        exact upd_ne _ _ hp
    · exact Or.inr ⟨j2, List.mem_cons_of_mem _ hj2, hv⟩

theorem foldl_buckets_frozen (keys : List Nat) (h : seeds_exist keys)
    (l : List Nat) (sl : Nat → Nat) (p : Nat)
    (hp : ∀ b ∈ l, ∀ j, j < fks_counts keys b → fks_wpos keys h b j ≠ p) :
    (l.foldl (fks_write_bucket keys h) sl) p = sl p := by
  induction l generalizing sl with
  | nil => rfl
  | cons b l ih =>
    rw [List.foldl_cons,
      ih _ (fun b2 hb2 => hp b2 (List.mem_cons_of_mem _ hb2))]
    exact foldl_upd_frozen _ _ _ _ _
      (fun j hj => hp b (List.mem_cons_self _ _) j (List.mem_range.mp hj))

theorem foldl_buckets_value (keys : List Nat) (h : seeds_exist keys)
    (l : List Nat) (sl : Nat → Nat) {b0 j0 : Nat}
    (hmem : b0 ∈ l) (hnd : l.Nodup) (hj0 : j0 < fks_counts keys b0)
    (hsame : ∀ j, j < fks_counts keys b0 → j ≠ j0 →
      fks_wpos keys h b0 j ≠ fks_wpos keys h b0 j0)
    (hother : ∀ b ∈ l, b ≠ b0 → ∀ j, j < fks_counts keys b →
      fks_wpos keys h b j ≠ fks_wpos keys h b0 j0) :
    (l.foldl (fks_write_bucket keys h) sl) (fks_wpos keys h b0 j0) =
      fks_witem keys b0 j0 := by
  induction l generalizing sl with
  | nil => cases hmem
  | cons b l ih =>
    rcases List.nodup_cons.mp hnd with ⟨hbl, hnd2⟩
    rw [List.foldl_cons]
    by_cases hb : b = b0
    · subst hb
      rw [foldl_buckets_frozen keys h l _ _
        (fun b2 hb2 j hj => hother b2 (List.mem_cons_of_mem _ hb2)
          (fun he => hbl (he ▸ hb2)) j hj)]
      exact foldl_upd_write _ _ _ _ (List.mem_range.mpr hj0)
        (fun j hjmem hne => hsame j (List.mem_range.mp hjmem) hne)
    · have hmem2 : b0 ∈ l :=
        (List.mem_cons.mp hmem).resolve_left (fun he => hb he.symm)
      exact ih _ hmem2 hnd2
        (fun b2 hb2 => hother b2 (List.mem_cons_of_mem _ hb2))

theorem local_pos_of_lt (key a r : Nat) : local_pos_of key a r < 2 ^ r :=
  top_bits_lt (Nat.mod_lt _ word_mod_pos) r

theorem fks_mult_eq (keys : List Nat) (h : seeds_exist keys) {b : Nat}
    (hb : b < fks_buckets keys) (hc : 0 < fks_counts keys b) :
    fks_mult keys h b = seedA (Nat.find (h b hb hc) + 1) := by
  unfold fks_mult
  rw [dif_pos ⟨hb, hc⟩]

theorem fks_mult_ok (keys : List Nat) (h : seeds_exist keys) {b : Nat}
    (hb : b < fks_buckets keys) (hc : 0 < fks_counts keys b) :
    seed_ok (bucket_key_list keys b) (fks_rbits keys b)
      (Nat.find (h b hb hc) + 1) = true :=
  Nat.find_spec (h b hb hc)

theorem fks_locals_nodup (keys : List Nat) (h : seeds_exist keys) {b : Nat}
    (hb : b < fks_buckets keys) (hc : 0 < fks_counts keys b) :
    ((bucket_key_list keys b).map
      (fun k => local_pos_of k (fks_mult keys h b) (fks_rbits keys b))).Nodup := by
  have hok := fks_mult_ok keys h hb hc
  rw [fks_mult_eq keys h hb hc]
  unfold seed_ok at hok
  exact (distinct_list_iff _).mp hok

theorem bucket_key_list_length (keys : List Nat) (b : Nat) :
    (bucket_key_list keys b).length = fks_counts keys b := by
  simp [bucket_key_list]

theorem bucket_key_list_getD (keys : List Nat) {b j : Nat}
    (hj : j < fks_counts keys b) :
    (bucket_key_list keys b).getD j 0 =
      keys.getD (fks_items keys (fks_offs keys b + j)) 0 := by
  unfold bucket_key_list
  rw [getD_map_lt _ _ (by simpa using hj), getD_range_lt hj]

theorem fks_witem_lt (keys : List Nat) {b j : Nat}
    (hj : j < fks_counts keys b) : fks_witem keys b j < keys.length := by
  obtain ⟨i, hi, hB, hR⟩ := fks_rank_surj keys hj
  unfold fks_witem
  rw [← hB, ← hR, fks_items_at_rank keys hi]
  exact hi

theorem fks_wpos_inj_same (keys : List Nat) (h : seeds_exist keys) {b : Nat}
    (hb : b < fks_buckets keys) (hc : 0 < fks_counts keys b) {j j' : Nat}
    (hj : j < fks_counts keys b) (hj' : j' < fks_counts keys b)
    (hne : j ≠ j') : fks_wpos keys h b j ≠ fks_wpos keys h b j' := by
  intro heq
  unfold fks_wpos at heq
  have heq2 : local_pos_of (keys.getD (fks_witem keys b j) 0)
      (fks_mult keys h b) (fks_rbits keys b) =
      local_pos_of (keys.getD (fks_witem keys b j') 0)
        (fks_mult keys h b) (fks_rbits keys b) := by
    omega
  have e1 : keys.getD (fks_witem keys b j) 0 =
      (bucket_key_list keys b).getD j 0 := (bucket_key_list_getD keys hj).symm
  have e2 : keys.getD (fks_witem keys b j') 0 =
      (bucket_key_list keys b).getD j' 0 := (bucket_key_list_getD keys hj').symm
  rw [e1, e2] at heq2
  have hjl : j < (bucket_key_list keys b).length := by
    rw [bucket_key_list_length]; exact hj
  have hjl2 : j' < (bucket_key_list keys b).length := by
    rw [bucket_key_list_length]; exact hj'
  have m1 := getD_map_lt (bucket_key_list keys b)
    (fun k => local_pos_of k (fks_mult keys h b) (fks_rbits keys b)) hjl
  have m2 := getD_map_lt (bucket_key_list keys b)
    (fun k => local_pos_of k (fks_mult keys h b) (fks_rbits keys b)) hjl2
  simp only at m1 m2
  rw [← m1, ← m2] at heq2
  apply hne
  refine nodup_getD_inj _ (fks_locals_nodup keys h hb hc) ?_ ?_ heq2
  · simpa using hjl
  · simpa using hjl2

theorem fks_wpos_in_interval (keys : List Nat) (h : seeds_exist keys)
    (b j : Nat) :
    fks_base keys b ≤ fks_wpos keys h b j ∧
      fks_wpos keys h b j < fks_base keys b + 2 ^ fks_rbits keys b := by
  refine ⟨Nat.le_add_right _ _, ?_⟩
  unfold fks_wpos
  have := local_pos_of_lt (keys.getD (fks_witem keys b j) 0)
    (fks_mult keys h b) (fks_rbits keys b)
  omega

theorem fks_wpos_ne_other (keys : List Nat) (h : seeds_exist keys)
    {b b' j j' : Nat} (hne : b ≠ b') :
    fks_wpos keys h b j ≠ fks_wpos keys h b' j' := by
  intro heq
  have h1 := fks_wpos_in_interval keys h b j
  have h2 := fks_wpos_in_interval keys h b' j'
  unfold fks_base at h1 h2
  have hd := base_interval_disjoint (fks_rbits keys) hne h1.1 h1.2
  exact hd ⟨heq ▸ h2.1, heq ▸ h2.2⟩

theorem fks_slot_at (keys : List Nat) (h : seeds_exist keys) {b j : Nat}
    (hb : b < fks_buckets keys) (hj : j < fks_counts keys b) :
    fks_slot_to_index keys h (fks_wpos keys h b j) = fks_witem keys b j := by
  unfold fks_slot_to_index
  refine foldl_buckets_value keys h _ _ (List.mem_range.mpr hb)
    (List.nodup_range _) hj ?_ ?_
  · intro j2 hj2 hne
    exact fks_wpos_inj_same keys h hb (by omega) hj2 hj hne
  · intro b2 hb2 hbne j2 hj2
    exact fks_wpos_ne_other keys h hbne

theorem foldl_buckets_cases (keys : List Nat) (h : seeds_exist keys)
    (l : List Nat) (sl : Nat → Nat) (p : Nat) :
    (l.foldl (fks_write_bucket keys h) sl) p = sl p ∨
      ∃ b ∈ l, ∃ j, j < fks_counts keys b ∧
        (l.foldl (fks_write_bucket keys h) sl) p = fks_witem keys b j := by
  induction l generalizing sl with
  | nil => exact Or.inl rfl
  | cons b l ih =>
    rw [List.foldl_cons]
    rcases ih (fks_write_bucket keys h sl b) with hcase | ⟨b2, hb2, j2, hj2, hv⟩
    · rcases foldl_upd_cases (List.range (fks_counts keys b))
        (fun j => fks_wpos keys h b j) (fun j => fks_witem keys b j) sl p
        with h2 | ⟨j, hjmem, hv2⟩
      · left
        rw [hcase]
        exact h2
      · right
        refine ⟨b, List.mem_cons_self _ _, j, List.mem_range.mp hjmem, ?_⟩
        rw [hcase]
        exact hv2
    · exact Or.inr ⟨b2, List.mem_cons_of_mem _ hb2, j2, hj2, hv⟩

theorem fks_slot_cases (keys : List Nat) (h : seeds_exist keys) (p : Nat) :
    fks_slot_to_index keys h p = fks_not_found keys ∨
      fks_slot_to_index keys h p < keys.length := by
  unfold fks_slot_to_index
  rcases foldl_buckets_cases keys h (List.range (fks_buckets keys))
    (fun _ => fks_not_found keys) p with hcase | ⟨b, _, j, hj, hv⟩
  · exact Or.inl hcase
  · right
    rw [hv]
    exact fks_witem_lt keys hj

theorem fks_buckets_pos (keys : List Nat) (hsmall : keys.length ≤ 2 ^ 63) :
    0 < fks_buckets keys := by
  unfold fks_buckets
  apply ceil_pow2_pos
  unfold fks_size
  split
  · norm_num
  · exact hsmall

theorem fks_lookup_hit (keys : List Nat) (h : seeds_exist keys)
    (hM : 0 < fks_buckets keys) {i : Nat} (hi : i < keys.length) :
    fks_lookup keys h (keys.getD i 0) = i := by
  have hB : keyB keys i < fks_buckets keys := bucket_of_lt hM _
  have hrank := fks_rank_lt_counts keys hi
  have hpos : fks_base keys (keyB keys i) +
      fks_local_pos keys h (keyB keys i) (keys.getD i 0) =
      fks_wpos keys h (keyB keys i) (keyRank keys i) := by
    unfold fks_wpos fks_local_pos fks_witem
    rw [fks_items_at_rank keys hi]
  unfold fks_lookup
  simp only
  rw [show mix_native (keys.getD i 0) &&& (fks_buckets keys - 1) =
    keyB keys i from rfl]
  rw [hpos, fks_slot_at keys h hB hrank]
  unfold fks_witem
  rw [fks_items_at_rank keys hi]
  rw [if_neg (by unfold fks_size; omega)]
  rw [if_pos (show fks_keys_by_index keys i = keys.getD i 0 from rfl)]

theorem fks_lookup_miss (keys : List Nat) (h : seeds_exist keys) {key : Nat}
    (hk : key ∉ keys) : fks_lookup keys h key = fks_not_found keys := by
  unfold fks_lookup
  simp only
  set p := fks_base keys (mix_native key &&& (fks_buckets keys - 1)) +
    fks_local_pos keys h (mix_native key &&& (fks_buckets keys - 1)) key with hp
  rcases fks_slot_cases keys h p with hN | hlt
  · rw [hN, if_pos (show fks_not_found keys = fks_size keys from rfl)]
    rfl
  · rw [if_neg (show ¬(fks_slot_to_index keys h p = fks_size keys) by
      unfold fks_size
      omega)]
    have hnotmem :
        ¬(fks_keys_by_index keys (fks_slot_to_index keys h p) = key) := by
      intro hmem
      apply hk
      rw [show fks_keys_by_index keys (fks_slot_to_index keys h p) =
        keys.getD (fks_slot_to_index keys h p) 0 from rfl] at hmem
      rw [getD_eq_getElem_of_lt keys hlt] at hmem
      rw [← hmem]
      exact List.getElem_mem hlt
    rw [if_neg hnotmem]
    rfl

theorem seeds_exist_of_singleton (keys : List Nat)
    (hone : ∀ b, b < fks_buckets keys → fks_counts keys b ≤ 1) :
    seeds_exist keys := by
  intro b hb hc
  refine ⟨0, ?_⟩
  unfold seedP seed_ok
  have hlen : (bucket_key_list keys b).length ≤ 1 := by
    rw [bucket_key_list_length]
    exact hone b hb
  rcases hbk : bucket_key_list keys b with _ | ⟨x, t⟩
  · rfl
  · rcases ht : t with _ | ⟨y, t2⟩
    · rfl
    · rw [hbk, ht] at hlen
      simp at hlen

theorem seeds_exist_012 : seeds_exist [0, 1, 2] :=
  seeds_exist_of_singleton _ (by decide)

/-- C1: for every non-empty pack of pairwise-distinct unsigned keys (with
table build completed: a collision-free multiplier exists for every
non-empty bucket, see the termination theorem), the FKS table built by the
`fks_impl` constructor maps the key at declared position `i` to `i` and
maps every key not in the set to the sentinel `N` (the final membership
comparison against `_keys_by_index` rejects all non-members). -/
theorem fks_correct (keys : List Nat) (hnd : keys.Nodup) (hne : keys ≠ [])
    (hbound : ∀ k ∈ keys, k < word_mod) (hsmall : keys.length ≤ 2 ^ 63)
    (h : seeds_exist keys) :
    (∀ i, i < keys.length → fks_lookup keys h (keys.getD i 0) = i) ∧
    (∀ key, key ∉ keys → fks_lookup keys h key = fks_not_found keys) :=
  ⟨fun i hi => fks_lookup_hit keys h (fks_buckets_pos keys hsmall) hi,
   fun key hk => fks_lookup_miss keys h hk⟩

/-- Witness for the C1 theorem at the key set `{0, 1, 2}`, whose three
keys land in three distinct first-level buckets. -/
theorem fks_correct_witness :
    (∀ i, i < ([0, 1, 2] : List Nat).length →
      fks_lookup [0, 1, 2] seeds_exist_012 (([0, 1, 2] : List Nat).getD i 0) = i) ∧
    (∀ key, key ∉ ([0, 1, 2] : List Nat) →
      fks_lookup [0, 1, 2] seeds_exist_012 key = fks_not_found [0, 1, 2]) :=
  fks_correct [0, 1, 2] (by decide) (by decide)
    (by decide) (by decide) seeds_exist_012

/-- C6: for the same key set, the LLUT and the FKS backends return the
same lookup result on every input key. -/
theorem llut_fks_equiv (keys : List Nat) (hnd : keys.Nodup) (hne : keys ≠ [])
    (hbound : ∀ k ∈ keys, k < word_mod) (hsmall : keys.length ≤ 2 ^ 63)
    (h : seeds_exist keys) (key : Nat) :
    llut_lookup keys key = fks_lookup keys h key := by
  by_cases hk : key ∈ keys
  · obtain ⟨⟨i, hi⟩, hget⟩ := List.mem_iff_get.mp hk
    rw [← hget]
    rw [llut_lookup_hit keys hnd hi]
    have hgd : keys.get ⟨i, hi⟩ = keys.getD i 0 := by
      rw [getD_eq_getElem_of_lt keys hi]
      simp
    rw [hgd, fks_lookup_hit keys h (fks_buckets_pos keys hsmall) hi]
  · rw [llut_lookup_miss keys hk, fks_lookup_miss keys h hk]
    rfl

/-- Witness for the C6 theorem at the key set `{0, 1, 2}` and the
unregistered input key `5`. -/
theorem llut_fks_equiv_witness :
    llut_lookup [0, 1, 2] 5 = fks_lookup [0, 1, 2] seeds_exist_012 5 :=
  llut_fks_equiv [0, 1, 2] (by decide) (by decide) (by decide) (by decide)
    seeds_exist_012 5

/-- C9: FKS lookup is total and in-bounds for every input key: the
first-level bucket is below `buckets()`, the computed slot position
`base[b] + top_bits(mixed * a[b], rbits[b])` is strictly below `slots()`,
and the index read from `_slot_to_index` there is either the sentinel or a
valid dense index below `size()`, so no array access in `operator()` is
out of range. -/
theorem fks_lookup_safe (keys : List Nat) (hsmall : keys.length ≤ 2 ^ 63)
    (h : seeds_exist keys) (key : Nat) :
    (mix_native key &&& (fks_buckets keys - 1)) < fks_buckets keys ∧
    fks_base keys (mix_native key &&& (fks_buckets keys - 1)) +
        fks_local_pos keys h (mix_native key &&& (fks_buckets keys - 1)) key <
      fks_slots keys ∧
    (fks_slot_to_index keys h
        (fks_base keys (mix_native key &&& (fks_buckets keys - 1)) +
          fks_local_pos keys h
            (mix_native key &&& (fks_buckets keys - 1)) key) =
        fks_not_found keys ∨
      fks_slot_to_index keys h
        (fks_base keys (mix_native key &&& (fks_buckets keys - 1)) +
          fks_local_pos keys h
            (mix_native key &&& (fks_buckets keys - 1)) key) <
        fks_size keys) := by
  have hM := fks_buckets_pos keys hsmall
  have hb : (mix_native key &&& (fks_buckets keys - 1)) < fks_buckets keys :=
    lt_of_le_of_lt Nat.and_le_right (by omega)
  refine ⟨hb, ?_, fks_slot_cases keys h _⟩
  have hlocal : fks_local_pos keys h
      (mix_native key &&& (fks_buckets keys - 1)) key <
      2 ^ fks_rbits keys (mix_native key &&& (fks_buckets keys - 1)) :=
    local_pos_of_lt _ _ _
  have hstep : fks_base keys (mix_native key &&& (fks_buckets keys - 1)) +
      2 ^ fks_rbits keys (mix_native key &&& (fks_buckets keys - 1)) ≤
      fks_slots keys := by
    unfold fks_slots fks_base
    rw [← base_eq_total]
    have h1 : base_from_rbits (fks_rbits keys)
        ((mix_native key &&& (fks_buckets keys - 1)) + 1) ≤
        base_from_rbits (fks_rbits keys) (fks_buckets keys) :=
      base_le_base _ (by omega)
    rw [base_succ] at h1
    exact h1
  omega

/-- Witness for the C9 theorem at the key set `{0, 1, 2}` and input key
`12345`. -/
theorem fks_lookup_safe_witness :
    (mix_native 12345 &&& (fks_buckets [0, 1, 2] - 1)) < fks_buckets [0, 1, 2] ∧
    fks_base [0, 1, 2] (mix_native 12345 &&& (fks_buckets [0, 1, 2] - 1)) +
        fks_local_pos [0, 1, 2] seeds_exist_012
          (mix_native 12345 &&& (fks_buckets [0, 1, 2] - 1)) 12345 <
      fks_slots [0, 1, 2] ∧
    (fks_slot_to_index [0, 1, 2] seeds_exist_012
        (fks_base [0, 1, 2] (mix_native 12345 &&& (fks_buckets [0, 1, 2] - 1)) +
          fks_local_pos [0, 1, 2] seeds_exist_012
            (mix_native 12345 &&& (fks_buckets [0, 1, 2] - 1)) 12345) =
        fks_not_found [0, 1, 2] ∨
      fks_slot_to_index [0, 1, 2] seeds_exist_012
        (fks_base [0, 1, 2] (mix_native 12345 &&& (fks_buckets [0, 1, 2] - 1)) +
          fks_local_pos [0, 1, 2] seeds_exist_012
            (mix_native 12345 &&& (fks_buckets [0, 1, 2] - 1)) 12345) <
        fks_size [0, 1, 2]) :=
  fks_lookup_safe [0, 1, 2] (by decide) seeds_exist_012 12345

theorem xor_shift_lt_wm {x : Nat} (k : Nat) (hx : x < word_mod) :
    x ^^^ (x >>> k) < word_mod := by
  rw [word_mod_eq] at hx ⊢
  exact xor_shift_lt k hx

theorem xorshift_inj {k : Nat} (hk : 1 ≤ k) {x y : Nat} (hx : x < 2 ^ 64)
    (hy : y < 2 ^ 64) (he : x ^^^ (x >>> k) = y ^^^ (y >>> k)) : x = y := by
  have hbits : ∀ n i, 64 - i ≤ n → x.testBit i = y.testBit i := by
    intro n
    induction n with
    | zero =>
      intro i hi
      have h64 : 64 ≤ i := by omega
      rw [Nat.testBit_lt_two_pow
          (lt_of_lt_of_le hx (Nat.pow_le_pow_right (by norm_num) h64)),
        Nat.testBit_lt_two_pow
          (lt_of_lt_of_le hy (Nat.pow_le_pow_right (by norm_num) h64))]
    | succ n ih =>
      intro i hi
      rcases Nat.lt_or_ge i 64 with hlt | hge
      · have hxe : (x ^^^ (x >>> k)).testBit i =
            (y ^^^ (y >>> k)).testBit i := by rw [he]
        rw [Nat.testBit_xor, Nat.testBit_xor, Nat.testBit_shiftRight,
          Nat.testBit_shiftRight] at hxe
        have h2 := ih (k + i) (by omega)
        rw [h2] at hxe
        revert hxe
        cases hb1 : x.testBit i <;> cases hb2 : y.testBit i <;>
          cases hb3 : y.testBit (k + i) <;> simp
      · rw [Nat.testBit_lt_two_pow
            (lt_of_lt_of_le hx (Nat.pow_le_pow_right (by norm_num) hge)),
          Nat.testBit_lt_two_pow
            (lt_of_lt_of_le hy (Nat.pow_le_pow_right (by norm_num) hge))]
  exact Nat.eq_of_testBit_eq (fun i => hbits 64 i (by omega))

theorem mul_mod_inj {c : Nat} (hc : c % 2 = 1) {x y : Nat}
    (hx : x < word_mod) (hy : y < word_mod)
    (he : (x * c) % word_mod = (y * c) % word_mod) : x = y := by
  have hcop : Nat.Coprime c word_mod := by
    rw [word_mod_eq]
    apply Nat.Coprime.pow_right
    rw [Nat.coprime_two_right, Nat.odd_iff]
    exact hc
  have hmod : x ≡ y [MOD word_mod] :=
    Nat.ModEq.cancel_right_of_coprime (Nat.Coprime.symm hcop) he
  rw [Nat.ModEq, Nat.mod_eq_of_lt hx, Nat.mod_eq_of_lt hy] at hmod
  exact hmod

theorem mix_u64_inj {x y : Nat} (hx : x < word_mod) (hy : y < word_mod)
    (he : mix_u64 x = mix_u64 y) : x = y := by
  simp only [mix_u64] at he
  have h4 := xorshift_inj (k := 31) (by norm_num)
    (by rw [word_mod_eq] at *; exact Nat.mod_lt _ (by norm_num))
    (by rw [word_mod_eq] at *; exact Nat.mod_lt _ (by norm_num)) he
  have h3 := mul_mod_inj (by norm_num)
    (xor_shift_lt_wm 27 (Nat.mod_lt _ word_mod_pos))
    (xor_shift_lt_wm 27 (Nat.mod_lt _ word_mod_pos)) h4
  have h2 := xorshift_inj (k := 27) (by norm_num)
    (by rw [word_mod_eq] at *; exact Nat.mod_lt _ (by norm_num))
    (by rw [word_mod_eq] at *; exact Nat.mod_lt _ (by norm_num)) h3
  have h1 := mul_mod_inj (by norm_num)
    (xor_shift_lt_wm 30 hx) (xor_shift_lt_wm 30 hy) h2
  exact xorshift_inj (k := 30) (by norm_num)
    (by rw [word_mod_eq] at hx; exact hx)
    (by rw [word_mod_eq] at hy; exact hy) h1

theorem mix_u64_surj {y : Nat} (hy : y < word_mod) :
    ∃ x, x < word_mod ∧ mix_u64 x = y := by
  have hsurj := Finset.surj_on_of_inj_on_of_card_le
    (s := Finset.range word_mod) (t := Finset.range word_mod)
    (fun a _ => mix_u64 a)
    (fun a _ => Finset.mem_range.mpr (mix_u64_lt a))
    (fun a1 a2 ha1 ha2 he =>
      mix_u64_inj (Finset.mem_range.mp ha1) (Finset.mem_range.mp ha2) he)
    (le_refl _)
  obtain ⟨x, hx, he⟩ := hsurj y (Finset.mem_range.mpr hy)
  exact ⟨x, Finset.mem_range.mp hx, he.symm⟩

theorem or_one_of_odd {a : Nat} (hodd : a % 2 = 1) : a ||| 1 = a := by
  apply Nat.eq_of_testBit_eq
  intro i
  rw [Nat.testBit_or]
  cases i with
  | zero =>
    rw [Nat.testBit_zero, Nat.testBit_zero]
    simp [hodd]
  | succ i =>
    have h1 : Nat.testBit 1 (i + 1) = false := by
      rw [show (1 : Nat) = 2 ^ 0 from rfl]
      exact Nat.testBit_two_pow_of_ne (by omega)
    rw [h1, Bool.or_false]

theorem seedA_hits {a : Nat} (ha : a < word_mod) (hodd : a % 2 = 1) :
    ∃ seed, 1 ≤ seed ∧ seedA seed = a := by
  obtain ⟨x, hx, he⟩ := mix_u64_surj ha
  refine ⟨x, ?_, ?_⟩
  · rcases Nat.eq_zero_or_pos x with rfl | hpos
    · exfalso
      rw [show mix_u64 0 = 0 by decide] at he
      rw [← he] at hodd
      simp at hodd
    · exact hpos
  · unfold seedA mix_native
    rw [Nat.mod_eq_of_lt hx, he]
    exact or_one_of_odd hodd

theorem card_filter_mod_range (m k : Nat) (q : Nat → Prop) [DecidablePred q] :
    ((Finset.range (k * m)).filter (fun a => q (a % m))).card =
      k * ((Finset.range m).filter q).card := by
  induction k with
  | zero => simp
  | succ k ih =>
    have hsplit : (k + 1) * m = k * m + m := by ring
    rw [hsplit, Finset.range_add_eq_union, Finset.filter_union,
      Finset.card_union_of_disjoint, ih, Finset.filter_map,
      Finset.card_map]
    · have hcongr : Finset.filter
          ((fun a => q (a % m)) ∘ (addLeftEmbedding (k * m)))
          (Finset.range m) = Finset.filter q (Finset.range m) := by
        apply Finset.filter_congr
        intro a ha
        have halt : a < m := Finset.mem_range.mp ha
        simp only [Function.comp_apply, addLeftEmbedding_apply]
        rw [Nat.add_comm, Nat.add_mul_mod_self_right,
          Nat.mod_eq_of_lt halt]
      rw [hcongr]
      ring
    · rw [Finset.disjoint_left]
      intro a ha hamem
      have h1 : a < k * m := Finset.mem_range.mp (Finset.mem_filter.mp ha).1
      have h2 := (Finset.mem_filter.mp hamem).1
      rw [Finset.mem_map] at h2
      obtain ⟨b, hb, hab⟩ := h2
      rw [addLeftEmbedding_apply] at hab
      omega

theorem card_odd_range_pow {j : Nat} (hj : 1 ≤ j) :
    ((Finset.range (2 ^ j)).filter (fun a => a % 2 = 1)).card = 2 ^ (j - 1) := by
  have h : (2 : Nat) ^ j = 2 ^ (j - 1) * 2 := by
    rw [← pow_succ]
    congr 1
    omega
  rw [h, card_filter_mod_range 2 (2 ^ (j - 1)) (fun r => r = 1)]
  have : ((Finset.range 2).filter (fun r => r = 1)).card = 1 := by decide
  rw [this, Nat.mul_one]

theorem two_dvd_word_mod : (2 : Nat) ∣ word_mod := by
  rw [word_mod_eq]
  exact dvd_pow_self 2 (by norm_num)

theorem odd_mul_mod_odd {a q : Nat} (ha : a % 2 = 1) (hq : q % 2 = 1) :
    (a * q) % word_mod % 2 = 1 := by
  rw [Nat.mod_mod_of_dvd _ two_dvd_word_mod, Nat.mul_mod, ha, hq]

theorem mul_inv_cancel_mod {a q qi : Nat} (ha : a < word_mod)
    (hqi : q * qi % word_mod = 1) :
    ((a * q) % word_mod * qi) % word_mod = a := by
  calc ((a * q) % word_mod * qi) % word_mod
      = (a * q * qi) % word_mod := by rw [Nat.mod_mul_mod]
    _ = (a * (q * qi)) % word_mod := by rw [mul_assoc]
    _ = (a * (q * qi % word_mod)) % word_mod := by rw [Nat.mul_mod_mod]
    _ = a := by rw [hqi, mul_one, Nat.mod_eq_of_lt ha]

theorem card_filter_mul_odd (q : Nat) (hq : q % 2 = 1) (P : Nat → Prop)
    [DecidablePred P] :
    ((Finset.range word_mod).filter
      (fun a => a % 2 = 1 ∧ P ((a * q) % word_mod))).card =
      ((Finset.range word_mod).filter (fun a => a % 2 = 1 ∧ P a)).card := by
  have hcop : Nat.Coprime q word_mod := by
    rw [word_mod_eq]
    apply Nat.Coprime.pow_right
    rw [Nat.coprime_two_right, Nat.odd_iff]
    exact hq
  obtain ⟨qi, hqi⟩ := Nat.exists_mul_emod_eq_one_of_coprime hcop
    (by rw [word_mod_eq]; norm_num)
  have hqiodd : qi % 2 = 1 := by
    have hpar := congrArg (· % 2) hqi
    simp only at hpar
    rw [Nat.mod_mod_of_dvd _ two_dvd_word_mod, Nat.mul_mod, hq] at hpar
    omega
  have hqq : qi * q % word_mod = 1 := by
    rw [mul_comm]
    exact hqi
  apply Finset.card_nbij' (fun a => (a * q) % word_mod)
    (fun a => (a * qi) % word_mod)
  · intro a ha
    rw [Finset.mem_filter] at ha ⊢
    refine ⟨Finset.mem_range.mpr (Nat.mod_lt _ word_mod_pos),
      odd_mul_mod_odd ha.2.1 hq, ?_⟩
    exact ha.2.2
  · intro a ha
    rw [Finset.mem_filter] at ha ⊢
    have halt : a < word_mod := Finset.mem_range.mp ha.1
    refine ⟨Finset.mem_range.mpr (Nat.mod_lt _ word_mod_pos),
      odd_mul_mod_odd ha.2.1 hqiodd, ?_⟩
    rw [mul_inv_cancel_mod halt hqq]
    exact ha.2.2
  · intro a ha
    rw [Finset.mem_filter] at ha
    exact mul_inv_cancel_mod (Finset.mem_range.mp ha.1) hqi
  · intro a ha
    rw [Finset.mem_filter] at ha
    exact mul_inv_cancel_mod (Finset.mem_range.mp ha.1) hqq

theorem collision_imp_band {u v a r : Nat} (hv : v < word_mod) (hr1 : 1 ≤ r)
    (hcol : top_bits ((u * a) % word_mod) r =
      top_bits ((v * a) % word_mod) r) :
    (((u + word_mod - v) % word_mod) * a) % word_mod < 2 ^ (64 - r) ∨
      word_mod - 2 ^ (64 - r) <
        (((u + word_mod - v) % word_mod) * a) % word_mod := by
  have hcpos : 0 < 2 ^ (64 - r) := Nat.pos_pow_of_pos _ (by norm_num)
  have htop : ∀ z : Nat, top_bits z r = z / 2 ^ (64 - r) := by
    intro z
    simp only [top_bits, word_bits]
    rw [if_neg (by omega), Nat.shiftRight_eq_div_pow]
  rw [htop, htop] at hcol
  set x := (u * a) % word_mod with hx
  set y := (v * a) % word_mod with hy
  set D := (((u + word_mod - v) % word_mod) * a) % word_mod with hD
  have hdx := Nat.div_add_mod x (2 ^ (64 - r))
  have hdy := Nat.div_add_mod y (2 ^ (64 - r))
  have hmx := Nat.mod_lt x hcpos
  have hmy := Nat.mod_lt y hcpos
  have hband : x < y + 2 ^ (64 - r) ∧ y < x + 2 ^ (64 - r) := by
    rw [hcol] at hdx
    omega
  have hxlt : x < word_mod := Nat.mod_lt _ word_mod_pos
  have hylt : y < word_mod := Nat.mod_lt _ word_mod_pos
  have hDlt : D < word_mod := Nat.mod_lt _ word_mod_pos
  have hle : v ≤ u + word_mod := by omega
  have hD2 : D = ((u + word_mod - v) * a) % word_mod := by
    rw [hD]
    exact (Nat.mod_modEq _ _).mul_right a
  have hcong : (D : ℤ) % (word_mod : ℤ) =
      ((x : ℤ) - (y : ℤ)) % (word_mod : ℤ) := by
    rw [hD2]
    push_cast [Nat.cast_sub hle]
    rw [Int.emod_emod_of_dvd _ dvd_rfl]
    calc ((u : ℤ) + word_mod - v) * a % word_mod
        = (((u : ℤ) - v) * a + word_mod * a) % word_mod := by ring_nf
      _ = (((u : ℤ) - v) * a) % word_mod := by
          rw [Int.add_mul_emod_self_left]
      _ = ((u : ℤ) * a - v * a) % word_mod := by ring_nf
      _ = ((u : ℤ) * a % word_mod - v * a % word_mod) % word_mod := by
          rw [Int.sub_emod]
  have hfin : (D : ℤ) = (x : ℤ) - y ∨
      (D : ℤ) = (x : ℤ) - y + word_mod := by
    have hDmod : (D : ℤ) % (word_mod : ℤ) = (D : ℤ) :=
      Int.emod_eq_of_lt (by positivity) (by exact_mod_cast hDlt)
    rcases le_or_lt (y : ℤ) (x : ℤ) with hxy | hxy
    · left
      have hsub : ((x : ℤ) - y) % (word_mod : ℤ) = (x : ℤ) - y := by
        apply Int.emod_eq_of_lt (by omega)
        have : (x : ℤ) < word_mod := by exact_mod_cast hxlt
        omega
      rw [hDmod, hsub] at hcong
      exact hcong
    · right
      have hsub : ((x : ℤ) - y) % (word_mod : ℤ) =
          (x : ℤ) - y + word_mod := by
        have h1 : ((x : ℤ) - y) % (word_mod : ℤ) =
            ((x : ℤ) - y + word_mod * 1) % (word_mod : ℤ) := by
          rw [Int.add_mul_emod_self_left]
        rw [h1, mul_one]
        apply Int.emod_eq_of_lt
        · have : (y : ℤ) < word_mod := by exact_mod_cast hylt
          omega
        · omega
      rw [hDmod, hsub] at hcong
      omega
  rcases hfin with hf | hf
  · left
    omega
  · right
    omega

theorem count_w_le {n r : Nat} (hn1 : 1 ≤ n) (hr1 : 1 ≤ r) (hrn : r ≤ n) :
    ((Finset.range (2 ^ n)).filter (fun w => w % 2 = 1 ∧
      (w < 2 ^ (n - r) ∨ 2 ^ n - 2 ^ (n - r) < w))).card ≤ 2 ^ (n - r) := by
  rcases Nat.eq_or_lt_of_le hrn with hEq | hlt
  · subst hEq
    have hz : (Finset.range (2 ^ r)).filter (fun w => w % 2 = 1 ∧
        (w < 2 ^ (r - r) ∨ 2 ^ r - 2 ^ (r - r) < w)) = ∅ := by
      rw [Finset.filter_eq_empty_iff]
      intro w hw
      rw [Finset.mem_range] at hw
      rw [Nat.sub_self, pow_zero]
      rintro ⟨ho, hc | hc⟩
      · omega
      · omega
    rw [hz]
    simp
  · have hm1 : 1 ≤ n - r := by omega
    have hple : 2 ^ (n - r) ≤ 2 ^ n := Nat.pow_le_pow_right (by norm_num) (by omega)
    have hcongr : ((Finset.range (2 ^ n)).filter (fun w => w % 2 = 1 ∧
        (w < 2 ^ (n - r) ∨ 2 ^ n - 2 ^ (n - r) < w))) =
        ((Finset.range (2 ^ n)).filter (fun w => w % 2 = 1 ∧ w < 2 ^ (n - r))) ∪
        ((Finset.range (2 ^ n)).filter
          (fun w => w % 2 = 1 ∧ 2 ^ n - 2 ^ (n - r) < w)) := by
      rw [← Finset.filter_or]
      apply Finset.filter_congr
      intro w _
      constructor
      · rintro ⟨ho, hc | hc⟩
        · exact Or.inl ⟨ho, hc⟩
        · exact Or.inr ⟨ho, hc⟩
      · rintro (⟨ho, hc⟩ | ⟨ho, hc⟩)
        · exact ⟨ho, Or.inl hc⟩
        · exact ⟨ho, Or.inr hc⟩
    have hlow : ((Finset.range (2 ^ n)).filter
        (fun w => w % 2 = 1 ∧ w < 2 ^ (n - r))) =
        (Finset.range (2 ^ (n - r))).filter (fun w => w % 2 = 1) := by
      ext w
      simp only [Finset.mem_filter, Finset.mem_range]
      constructor
      · rintro ⟨_, ho, hw⟩
        exact ⟨hw, ho⟩
      · rintro ⟨hw, ho⟩
        exact ⟨by omega, ho, hw⟩
    have hlowcard : ((Finset.range (2 ^ n)).filter
        (fun w => w % 2 = 1 ∧ w < 2 ^ (n - r))).card = 2 ^ (n - r - 1) := by
      rw [hlow]
      exact card_odd_range_pow hm1
    have hhighcard : ((Finset.range (2 ^ n)).filter
        (fun w => w % 2 = 1 ∧ 2 ^ n - 2 ^ (n - r) < w)).card ≤ 2 ^ (n - r - 1) := by
      rw [← card_odd_range_pow hm1]
      apply Finset.card_le_card_of_injOn (fun w => w - (2 ^ n - 2 ^ (n - r)))
      · intro w hw
        rw [Finset.mem_filter, Finset.mem_range] at hw
        obtain ⟨hwr, ho, hgt⟩ := hw
        rw [Finset.mem_filter, Finset.mem_range]
        have h2n : 2 ^ n % 2 = 0 := by
          rcases Nat.exists_eq_add_of_le hn1 with ⟨j, hj⟩
          rw [hj, pow_add, pow_one]
          omega
        have h2m : 2 ^ (n - r) % 2 = 0 := by
          rcases Nat.exists_eq_add_of_le hm1 with ⟨j, hj⟩
          rw [hj, pow_add, pow_one]
          omega
        constructor
        · omega
        · omega
      · intro w1 h1 w2 h2 he
        rw [Finset.mem_coe, Finset.mem_filter, Finset.mem_range] at h1 h2
        simp only at he
        omega
    calc ((Finset.range (2 ^ n)).filter (fun w => w % 2 = 1 ∧
          (w < 2 ^ (n - r) ∨ 2 ^ n - 2 ^ (n - r) < w))).card
        ≤ ((Finset.range (2 ^ n)).filter
            (fun w => w % 2 = 1 ∧ w < 2 ^ (n - r))).card +
          ((Finset.range (2 ^ n)).filter
            (fun w => w % 2 = 1 ∧ 2 ^ n - 2 ^ (n - r) < w)).card := by
          rw [hcongr]
          exact Finset.card_union_le _ _
      _ ≤ 2 ^ (n - r - 1) + 2 ^ (n - r - 1) := by
          rw [hlowcard]
          omega
      _ = 2 ^ (n - r) := by
          rw [← two_mul, ← pow_succ']
          congr 1
          omega

theorem band_count {d r : Nat} (hd0 : d ≠ 0) (hdlt : d < word_mod)
    (hr1 : 1 ≤ r) (hr64 : r ≤ 64) :
    ((Finset.range word_mod).filter (fun a => a % 2 = 1 ∧
      ((d * a) % word_mod < 2 ^ (64 - r) ∨
        word_mod - 2 ^ (64 - r) < (d * a) % word_mod))).card ≤ 2 ^ (64 - r) := by
  obtain ⟨θ, q, hqodd, hdec⟩ := Nat.exists_eq_two_pow_mul_odd hd0
  have hq2 : q % 2 = 1 := Nat.odd_iff.mp hqodd
  have hθ : θ ≤ 63 := by
    have h1 : 2 ^ θ ≤ d := by
      rw [hdec]
      exact Nat.le_mul_of_pos_right _ (by omega)
    have h2 : 2 ^ θ < 2 ^ 64 := by
      rw [← word_mod_eq]
      omega
    have := (Nat.pow_lt_pow_iff_right (a := 2) (by norm_num)).mp h2
    omega
  set n := 64 - θ with hn
  have hn1 : 1 ≤ n := by omega
  have hsplit : word_mod = 2 ^ θ * 2 ^ n := by
    rw [word_mod_eq, ← pow_add]
    congr 1
    omega
  have h2dvdn : (2 : Nat) ∣ 2 ^ n := dvd_pow_self 2 (by omega)
  have hndvd : (2 : Nat) ^ n ∣ word_mod := ⟨2 ^ θ, by rw [hsplit]; ring⟩
  have hDa : ∀ a, (d * a) % word_mod = 2 ^ θ * ((q * a) % 2 ^ n) := by
    intro a
    rw [hdec, hsplit, mul_assoc, Nat.mul_mod_mul_left]
  have hstep1 : ((Finset.range word_mod).filter (fun a => a % 2 = 1 ∧
      ((d * a) % word_mod < 2 ^ (64 - r) ∨
        word_mod - 2 ^ (64 - r) < (d * a) % word_mod))) =
      ((Finset.range word_mod).filter (fun a => a % 2 = 1 ∧
        (2 ^ θ * (((a * q) % word_mod) % 2 ^ n) < 2 ^ (64 - r) ∨
          word_mod - 2 ^ (64 - r) <
            2 ^ θ * (((a * q) % word_mod) % 2 ^ n)))) := by
    apply Finset.filter_congr
    intro a _
    rw [hDa a, Nat.mod_mod_of_dvd _ hndvd, mul_comm q a]
  have hstep2 := card_filter_mul_odd q hq2
    (fun z => 2 ^ θ * (z % 2 ^ n) < 2 ^ (64 - r) ∨
      word_mod - 2 ^ (64 - r) < 2 ^ θ * (z % 2 ^ n))
  have hstep3 : ((Finset.range word_mod).filter (fun a => a % 2 = 1 ∧
      (2 ^ θ * (a % 2 ^ n) < 2 ^ (64 - r) ∨
        word_mod - 2 ^ (64 - r) < 2 ^ θ * (a % 2 ^ n)))).card =
      2 ^ θ * ((Finset.range (2 ^ n)).filter (fun w => w % 2 = 1 ∧
        (2 ^ θ * w < 2 ^ (64 - r) ∨
          word_mod - 2 ^ (64 - r) < 2 ^ θ * w))).card := by
    have hcg : ((Finset.range word_mod).filter (fun a => a % 2 = 1 ∧
        (2 ^ θ * (a % 2 ^ n) < 2 ^ (64 - r) ∨
          word_mod - 2 ^ (64 - r) < 2 ^ θ * (a % 2 ^ n)))) =
        ((Finset.range (2 ^ θ * 2 ^ n)).filter (fun a =>
          (a % 2 ^ n) % 2 = 1 ∧
          (2 ^ θ * (a % 2 ^ n) < 2 ^ (64 - r) ∨
            word_mod - 2 ^ (64 - r) < 2 ^ θ * (a % 2 ^ n)))) := by
      rw [← hsplit]
      apply Finset.filter_congr
      intro a _
      rw [Nat.mod_mod_of_dvd a h2dvdn]
    rw [hcg]
    have := card_filter_mod_range (2 ^ n) (2 ^ θ)
      (fun w => w % 2 = 1 ∧ (2 ^ θ * w < 2 ^ (64 - r) ∨
        word_mod - 2 ^ (64 - r) < 2 ^ θ * w))
    exact this
  rw [hstep1, hstep2, hstep3]
  rcases le_or_lt r n with hrn | hrn
  · have hexp : (2 : Nat) ^ (64 - r) = 2 ^ θ * 2 ^ (n - r) := by
      have he : 64 - r = θ + (n - r) := by omega
      rw [he, pow_add]
    have hcg2 : ((Finset.range (2 ^ n)).filter (fun w => w % 2 = 1 ∧
        (2 ^ θ * w < 2 ^ (64 - r) ∨
          word_mod - 2 ^ (64 - r) < 2 ^ θ * w))) =
        ((Finset.range (2 ^ n)).filter (fun w => w % 2 = 1 ∧
          (w < 2 ^ (n - r) ∨ 2 ^ n - 2 ^ (n - r) < w))) := by
      apply Finset.filter_congr
      intro w _
      have hp : 0 < 2 ^ θ := Nat.pos_pow_of_pos _ (by norm_num)
      have e1 : word_mod - 2 ^ (64 - r) = 2 ^ θ * (2 ^ n - 2 ^ (n - r)) := by
        rw [hsplit, hexp, Nat.mul_sub]
      rw [e1, hexp]
      constructor
      · rintro ⟨ho, hc | hc⟩
        · exact ⟨ho, Or.inl (Nat.lt_of_mul_lt_mul_left hc)⟩
        · exact ⟨ho, Or.inr (Nat.lt_of_mul_lt_mul_left hc)⟩
      · rintro ⟨ho, hc | hc⟩
        · exact ⟨ho, Or.inl (Nat.mul_lt_mul_left hp |>.mpr hc)⟩
        · exact ⟨ho, Or.inr (Nat.mul_lt_mul_left hp |>.mpr hc)⟩
    rw [hcg2, hexp]
    exact Nat.mul_le_mul_left _ (count_w_le hn1 hr1 hrn)
  · have hz : ((Finset.range (2 ^ n)).filter (fun w => w % 2 = 1 ∧
        (2 ^ θ * w < 2 ^ (64 - r) ∨
          word_mod - 2 ^ (64 - r) < 2 ^ θ * w))).card = 0 := by
      rw [Finset.card_eq_zero, Finset.filter_eq_empty_iff]
      intro w hw
      rw [Finset.mem_range] at hw
      rintro ⟨ho, hc | hc⟩
      · have h1 : 2 ^ (64 - r) ≤ 2 ^ θ :=
          Nat.pow_le_pow_right (by norm_num) (by omega)
        have h2 : 2 ^ θ ≤ 2 ^ θ * w := Nat.le_mul_of_pos_right _ (by omega)
        omega
      · have h1 : 2 ^ θ * w ≤ 2 ^ θ * (2 ^ n - 1) :=
          Nat.mul_le_mul_left _ (by omega)
        have h2 : 2 ^ θ * (2 ^ n - 1) = word_mod - 2 ^ θ := by
          rw [hsplit, Nat.mul_sub, mul_one]
        have h3 : 2 ^ (64 - r) ≤ 2 ^ θ :=
          Nat.pow_le_pow_right (by norm_num) (by omega)
        have h4 : 2 ^ θ ≤ word_mod := by
          rw [hsplit]
          exact Nat.le_mul_of_pos_right _ (Nat.pos_pow_of_pos _ (by norm_num))
        omega
    rw [hz]
    simp

theorem bad_pair_card {u v r : Nat} (hu : u < word_mod) (hv : v < word_mod)
    (hne : u ≠ v) (hr1 : 1 ≤ r) (hr64 : r ≤ 64) :
    ((Finset.range word_mod).filter (fun a => a % 2 = 1 ∧
      top_bits ((u * a) % word_mod) r =
        top_bits ((v * a) % word_mod) r)).card ≤ 2 ^ (64 - r) := by
  set d := (u + word_mod - v) % word_mod with hd
  have hd0 : d ≠ 0 := by
    rw [hd]
    intro h
    rcases le_or_lt v u with hvu | hvu
    · have h1 : u + word_mod - v = (u - v) + word_mod := by omega
      rw [h1, Nat.add_mod_right, Nat.mod_eq_of_lt (by omega)] at h
      omega
    · have h1 : u + word_mod - v < word_mod := by omega
      rw [Nat.mod_eq_of_lt h1] at h
      omega
  have hdlt : d < word_mod := Nat.mod_lt _ word_mod_pos
  have hsub : ((Finset.range word_mod).filter (fun a => a % 2 = 1 ∧
      top_bits ((u * a) % word_mod) r =
        top_bits ((v * a) % word_mod) r)) ⊆
      ((Finset.range word_mod).filter (fun a => a % 2 = 1 ∧
        ((d * a) % word_mod < 2 ^ (64 - r) ∨
          word_mod - 2 ^ (64 - r) < (d * a) % word_mod))) := by
    intro a ha
    rw [Finset.mem_filter] at ha ⊢
    obtain ⟨hmem, ho, hcol⟩ := ha
    refine ⟨hmem, ho, ?_⟩
    rw [hd]
    exact collision_imp_band hv hr1 hcol
  calc ((Finset.range word_mod).filter (fun a => a % 2 = 1 ∧
        top_bits ((u * a) % word_mod) r =
          top_bits ((v * a) % word_mod) r)).card
      ≤ ((Finset.range word_mod).filter (fun a => a % 2 = 1 ∧
          ((d * a) % word_mod < 2 ^ (64 - r) ∨
            word_mod - 2 ^ (64 - r) < (d * a) % word_mod))).card :=
        Finset.card_le_card hsub
    _ ≤ 2 ^ (64 - r) := band_count hd0 hdlt hr1 hr64

theorem exists_dup_of_not_nodup {l : List Nat} (h : ¬ l.Nodup) :
    ∃ i j, i < j ∧ j < l.length ∧ l.getD i 0 = l.getD j 0 := by
  induction l with
  | nil => simp at h
  | cons x xs ih =>
    rw [List.nodup_cons] at h
    push_neg at h
    by_cases hx : x ∈ xs
    · obtain ⟨j, hj, hget⟩ := List.mem_iff_getElem.mp hx
      refine ⟨0, j + 1, by omega, by simp; omega, ?_⟩
      rw [List.getD_cons_zero, List.getD_cons_succ,
        getD_eq_getElem_of_lt _ hj]
      exact hget.symm
    · have hnx : ¬ xs.Nodup := by tauto
      obtain ⟨i, j, hij, hjl, he⟩ := ih hnx
      refine ⟨i + 1, j + 1, by omega, by simp; omega, ?_⟩
      rw [List.getD_cons_succ, List.getD_cons_succ]
      exact he

theorem good_multiplier_exists (us : List Nat) (r : Nat) (hnd : us.Nodup)
    (hlt : ∀ u ∈ us, u < word_mod)
    (hs : us.length * us.length ≤ 2 ^ r) (hr64 : r ≤ 64) :
    ∃ a, a < word_mod ∧ a % 2 = 1 ∧
      (us.map (fun u => top_bits ((u * a) % word_mod) r)).Nodup := by
  rcases le_or_lt us.length 1 with hlen | hlen
  · refine ⟨1, ?_, rfl, ?_⟩
    · rw [word_mod_eq]
      norm_num
    · rcases us with _ | ⟨u, us'⟩
      · simp
      · rcases us' with _ | ⟨v, us''⟩
        · simp
        · simp at hlen
  · have hlen2 : 2 ≤ us.length := hlen
    have hr1 : 1 ≤ r := by
      by_contra hc
      push_neg at hc
      interval_cases r
      have h4 : 4 ≤ us.length * us.length := Nat.mul_le_mul hlen2 hlen2
      simp at hs
      omega
    set s := us.length with hsl
    set A := (Finset.range word_mod).filter (fun a => a % 2 = 1) with hA
    have hAcard : A.card = 2 ^ 63 := by
      rw [hA, word_mod_eq]
      exact card_odd_range_pow (by norm_num)
    set pairsF := (Finset.range s).biUnion
      (fun j => (Finset.range j).image (fun i => (i, j))) with hP
    set Bad := A.filter (fun a =>
      ¬ (us.map (fun u => top_bits ((u * a) % word_mod) r)).Nodup) with hB
    have hcover : Bad ⊆ pairsF.biUnion (fun p =>
        A.filter (fun a => top_bits ((us.getD p.1 0 * a) % word_mod) r =
          top_bits ((us.getD p.2 0 * a) % word_mod) r)) := by
      intro a ha
      rw [hB, Finset.mem_filter] at ha
      obtain ⟨haA, hnn⟩ := ha
      obtain ⟨i, j, hij, hjl, he⟩ := exists_dup_of_not_nodup hnn
      rw [List.length_map] at hjl
      rw [Finset.mem_biUnion]
      refine ⟨(i, j), ?_, ?_⟩
      · rw [hP, Finset.mem_biUnion]
        exact ⟨j, Finset.mem_range.mpr hjl,
          Finset.mem_image.mpr ⟨i, Finset.mem_range.mpr hij, rfl⟩⟩
      · rw [Finset.mem_filter]
        refine ⟨haA, ?_⟩
        have hil : i < us.length := lt_trans hij hjl
        have e1 := getD_map_lt us
          (fun u => top_bits ((u * a) % word_mod) r) hil
        have e2 := getD_map_lt us
          (fun u => top_bits ((u * a) % word_mod) r) hjl
        simp only at e1 e2
        rw [e1, e2] at he
        exact he
    have hpair : ∀ p ∈ pairsF, (A.filter (fun a =>
        top_bits ((us.getD p.1 0 * a) % word_mod) r =
          top_bits ((us.getD p.2 0 * a) % word_mod) r)).card ≤
        2 ^ (64 - r) := by
      intro p hp
      rw [hP, Finset.mem_biUnion] at hp
      obtain ⟨j, hjm, hpim⟩ := hp
      rw [Finset.mem_image] at hpim
      obtain ⟨i, him, hpe⟩ := hpim
      rw [Finset.mem_range] at hjm him
      subst hpe
      simp only
      have hjl : j < us.length := hjm
      have hil : i < us.length := lt_trans him hjl
      have hune : us.getD i 0 ≠ us.getD j 0 := by
        intro hh
        have := nodup_getD_inj us hnd hil hjl hh
        omega
      have hui : us.getD i 0 < word_mod := by
        rw [getD_eq_getElem_of_lt _ hil]
        exact hlt _ (List.getElem_mem hil)
      have huj : us.getD j 0 < word_mod := by
        rw [getD_eq_getElem_of_lt _ hjl]
        exact hlt _ (List.getElem_mem hjl)
      rw [hA, Finset.filter_filter]
      exact bad_pair_card hui huj hune hr1 hr64
    have hBadcard : Bad.card ≤ pairsF.card * 2 ^ (64 - r) := by
      calc Bad.card
          ≤ (pairsF.biUnion (fun p => A.filter (fun a =>
              top_bits ((us.getD p.1 0 * a) % word_mod) r =
                top_bits ((us.getD p.2 0 * a) % word_mod) r))).card :=
            Finset.card_le_card hcover
        _ ≤ pairsF.sum (fun p => (A.filter (fun a =>
              top_bits ((us.getD p.1 0 * a) % word_mod) r =
                top_bits ((us.getD p.2 0 * a) % word_mod) r)).card) :=
            Finset.card_biUnion_le
        _ ≤ pairsF.sum (fun _ => 2 ^ (64 - r)) := Finset.sum_le_sum hpair
        _ = pairsF.card * 2 ^ (64 - r) := by
            rw [Finset.sum_const, smul_eq_mul]
    have hpairs2 : pairsF.card * 2 ≤ s * (s - 1) := by
      have h1 : pairsF.card ≤ (Finset.range s).sum (fun j => j) := by
        calc pairsF.card
            ≤ (Finset.range s).sum
                (fun j => ((Finset.range j).image (fun i => (i, j))).card) :=
              Finset.card_biUnion_le
          _ ≤ (Finset.range s).sum (fun j => j) := by
              apply Finset.sum_le_sum
              intro j _
              calc ((Finset.range j).image (fun i => (i, j))).card
                  ≤ (Finset.range j).card := Finset.card_image_le
                _ = j := Finset.card_range j
      calc pairsF.card * 2 ≤ (Finset.range s).sum (fun j => j) * 2 :=
            Nat.mul_le_mul_right 2 h1
        _ = s * (s - 1) := Finset.sum_range_id_mul_two s
    have hstrict : Bad.card < A.card := by
      have hss : s * (s - 1) ≤ 2 ^ r - 2 := by
        have hms : s * (s - 1) = s * s - s := by
          have := Nat.mul_sub s s 1
          simpa using this
        omega
      have hcpos : 1 ≤ 2 ^ (64 - r) := Nat.one_le_two_pow
      have hl5 : (2 ^ r - 2) * 2 ^ (64 - r) =
          2 ^ 64 - 2 * 2 ^ (64 - r) := by
        have he : r + (64 - r) = 64 := by omega
        rw [Nat.sub_mul, ← pow_add, he]
      have hfinal : Bad.card * 2 ≤ 2 ^ 64 - 2 * 2 ^ (64 - r) := by
        calc Bad.card * 2
            ≤ (pairsF.card * 2 ^ (64 - r)) * 2 :=
              Nat.mul_le_mul_right 2 hBadcard
          _ = (pairsF.card * 2) * 2 ^ (64 - r) := by ring
          _ ≤ (2 ^ r - 2) * 2 ^ (64 - r) :=
              Nat.mul_le_mul_right _ (le_trans hpairs2 hss)
          _ = 2 ^ 64 - 2 * 2 ^ (64 - r) := hl5
      have hv64 : (2 : Nat) ^ 64 = 2 * 2 ^ 63 := by norm_num
      rw [hAcard]
      omega
    have hdiff : (A \ Bad).Nonempty := by
      rw [← Finset.card_pos, Finset.card_sdiff (Finset.filter_subset _ _)]
      exact Nat.sub_pos_of_lt hstrict
    obtain ⟨a, haD⟩ := hdiff
    rw [Finset.mem_sdiff] at haD
    obtain ⟨haA, haB⟩ := haD
    have haA2 := haA
    rw [hA, Finset.mem_filter, Finset.mem_range] at haA2
    refine ⟨a, haA2.1, haA2.2, ?_⟩
    by_contra hnn
    apply haB
    rw [hB, Finset.mem_filter]
    exact ⟨haA, hnn⟩

theorem fks_witem_inj (keys : List Nat) {b j j' : Nat}
    (hj : j < fks_counts keys b) (hj' : j' < fks_counts keys b)
    (he : fks_witem keys b j = fks_witem keys b j') : j = j' := by
  obtain ⟨i, hi, hB, hR⟩ := fks_rank_surj keys hj
  obtain ⟨i', hi', hB', hR'⟩ := fks_rank_surj keys hj'
  have e1 : fks_witem keys b j = i := by
    unfold fks_witem
    rw [← hB, ← hR, fks_items_at_rank keys hi]
  have e2 : fks_witem keys b j' = i' := by
    unfold fks_witem
    rw [← hB', ← hR', fks_items_at_rank keys hi']
  rw [e1, e2] at he
  subst he
  rw [← hR, ← hR']

theorem bucket_key_list_subset (keys : List Nat) (b : Nat) :
    ∀ x ∈ bucket_key_list keys b, x ∈ keys := by
  intro x hx
  obtain ⟨j, hj, he⟩ := List.mem_iff_getElem.mp hx
  rw [bucket_key_list_length] at hj
  have hg := bucket_key_list_getD keys hj
  rw [getD_eq_getElem_of_lt _ (by rw [bucket_key_list_length]; exact hj),
    he] at hg
  have hw : fks_witem keys b j < keys.length := fks_witem_lt keys hj
  rw [hg, show fks_items keys (fks_offs keys b + j) = fks_witem keys b j
    from rfl, getD_eq_getElem_of_lt _ hw]
  exact List.getElem_mem hw

theorem bucket_key_list_nodup (keys : List Nat) (hnd : keys.Nodup) (b : Nat) :
    (bucket_key_list keys b).Nodup := by
  rw [List.nodup_iff_injective_get]
  rintro ⟨j, hj⟩ ⟨j', hj'⟩ he
  have hjc : j < fks_counts keys b := by
    rw [← bucket_key_list_length keys b]
    exact hj
  have hjc' : j' < fks_counts keys b := by
    rw [← bucket_key_list_length keys b]
    exact hj'
  simp only [List.get_eq_getElem] at he
  rw [← getD_eq_getElem_of_lt _ hj, ← getD_eq_getElem_of_lt _ hj',
    bucket_key_list_getD keys hjc, bucket_key_list_getD keys hjc'] at he
  have hw : fks_witem keys b j < keys.length := fks_witem_lt keys hjc
  have hw' : fks_witem keys b j' < keys.length := fks_witem_lt keys hjc'
  have hwe : fks_witem keys b j = fks_witem keys b j' :=
    nodup_getD_inj keys hnd hw hw' he
  have := fks_witem_inj keys hjc hjc' hwe
  exact Fin.ext this

theorem mix_native_inj_of_lt {x y : Nat} (hx : x < word_mod)
    (hy : y < word_mod) (he : mix_native x = mix_native y) : x = y := by
  unfold mix_native at he
  rw [Nat.mod_eq_of_lt hx, Nat.mod_eq_of_lt hy] at he
  exact mix_u64_inj hx hy he

theorem fks_rbits_sq (keys : List Nat) (hsmall : keys.length < 2 ^ 32)
    (b : Nat) :
    fks_counts keys b * fks_counts keys b ≤ 2 ^ fks_rbits keys b ∧
      fks_rbits keys b ≤ 64 := by
  have hslen : fks_counts keys b ≤ keys.length := fks_counts_le keys b
  have hs32 : fks_counts keys b < 2 ^ 32 := lt_of_le_of_lt hslen hsmall
  have hre : fks_rbits keys b = ceil_log2 (if fks_counts keys b ≤ 1 then 1
      else (fks_counts keys b * fks_counts keys b) % word_mod) := rfl
  rcases le_or_lt (fks_counts keys b) 1 with h1 | h1
  · have hr0 : fks_rbits keys b = 0 := by
      rw [hre, if_pos h1]
      decide
    rw [hr0]
    constructor
    · have := Nat.mul_le_mul h1 h1
      simpa using this
    · omega
  · have hss : fks_counts keys b * fks_counts keys b < word_mod := by
      rw [word_mod_eq]
      calc fks_counts keys b * fks_counts keys b
          < 2 ^ 32 * 2 ^ 32 := Nat.mul_lt_mul'' hs32 hs32
        _ = 2 ^ 64 := by norm_num
    have hre2 : fks_rbits keys b =
        ceil_log2 (fks_counts keys b * fks_counts keys b) := by
      rw [hre, if_neg (by omega), Nat.mod_eq_of_lt hss]
    rw [hre2]
    exact ceil_log2_spec _ (Nat.mul_pos (by omega) (by omega))
      (by rw [← word_mod_eq]; omega)

theorem seeds_exist_of_bound (keys : List Nat) (hnd : keys.Nodup)
    (hbound : ∀ k ∈ keys, k < word_mod) (hsmall : keys.length < 2 ^ 32) :
    seeds_exist keys := by
  intro b hb hc
  have hlen : (bucket_key_list keys b).length = fks_counts keys b :=
    bucket_key_list_length keys b
  have hrprop := fks_rbits_sq keys hsmall b
  have husnd : ((bucket_key_list keys b).map mix_native).Nodup := by
    apply List.Nodup.map_on
    · intro x hx y hy he
      exact mix_native_inj_of_lt
        (hbound x (bucket_key_list_subset keys b x hx))
        (hbound y (bucket_key_list_subset keys b y hy)) he
    · exact bucket_key_list_nodup keys hnd b
  have huslt : ∀ u ∈ (bucket_key_list keys b).map mix_native,
      u < word_mod := by
    intro u hu
    rw [List.mem_map] at hu
    obtain ⟨k, _, he⟩ := hu
    rw [← he]
    exact mix_native_lt k
  have huslen : ((bucket_key_list keys b).map mix_native).length =
      fks_counts keys b := by
    rw [List.length_map, hlen]
  obtain ⟨a, halt, haodd, hanodup⟩ := good_multiplier_exists
    ((bucket_key_list keys b).map mix_native) (fks_rbits keys b)
    husnd huslt (by rw [huslen]; exact hrprop.1) hrprop.2
  obtain ⟨seed, hseed1, hseedA⟩ := seedA_hits halt haodd
  refine ⟨seed - 1, ?_⟩
  unfold seedP
  have hsucc : seed - 1 + 1 = seed := by omega
  rw [hsucc]
  unfold seed_ok
  rw [distinct_list_iff, hseedA]
  have hmm : (bucket_key_list keys b).map
      (fun k => local_pos_of k a (fks_rbits keys b)) =
      ((bucket_key_list keys b).map mix_native).map
        (fun u => top_bits ((u * a) % word_mod) (fks_rbits keys b)) := by
    rw [List.map_map]
    rfl
  rw [hmm]
  exact hanodup

/-- C7: for every non-empty pack of pairwise-distinct unsigned keys (64-bit
values, pack size below `2^32` so the `std::size_t` square `s*s` does not
wrap), the FKS build terminates: every bucket's second-level size satisfies
`2 ^ rbits[b] ≥ s_b ^ 2`, and for each non-empty bucket the unbounded
`for (seed = 1;; ++seed)` search reaches, after finitely many trials, an
odd multiplier `a = mix_native(seed) | 1` under which the bucket's keys
have pairwise-distinct `top_bits` positions, so the loop always exits. -/
theorem fks_seed_search_terminates (keys : List Nat) (hnd : keys.Nodup)
    (hbound : ∀ k ∈ keys, k < word_mod) (hsmall : keys.length < 2 ^ 32) :
    (∀ b, fks_counts keys b * fks_counts keys b ≤ 2 ^ fks_rbits keys b) ∧
      seeds_exist keys :=
  ⟨fun b => (fks_rbits_sq keys hsmall b).1,
    seeds_exist_of_bound keys hnd hbound hsmall⟩

theorem fks_seed_search_terminates_witness :
    ([0, 1, 2] : List Nat).Nodup ∧
      (∀ k ∈ ([0, 1, 2] : List Nat), k < word_mod) ∧
      ([0, 1, 2] : List Nat).length < 2 ^ 32 ∧
      ((∀ b, fks_counts [0, 1, 2] b * fks_counts [0, 1, 2] b ≤
          2 ^ fks_rbits [0, 1, 2] b) ∧ seeds_exist [0, 1, 2]) :=
  ⟨by decide, by decide, by decide,
    fks_seed_search_terminates [0, 1, 2] (by decide) (by decide) (by decide)⟩
